import Mathlib

/-!
A shallow embedding of the b-tree modify walk in `src/btree/modify_oper.cc`
(`insert_root`, `check_and_handle_split`, `check_and_handle_underfull`,
`get_root`, `run_btree_modify_oper`).

The walk itself is translated from the source.  The node primitives
(`leaf::*`, `internal_node::*`, `node::*`), the buffer cache and the
large-value subsystem are external collaborators of that file (their code is
not part of the repository snapshot under verification), so they are modelled
from the specification's contracts (§3, §6): nodes are association lists,
capacity is measured by entry/child count against a block-size parameter
`bs`, and debug assertions (`rassert`/`guarantee`) are modelled as explicit
error results.
-/

namespace RDB

/-- Block ids are natural numbers.  The distinguished `NULL_BLOCK_ID`
("NONE") block id. -/
def NULL_BLOCK_ID : Nat := 0

/-- The fixed id of the superblock. -/
def SUPERBLOCK_ID : Nat := 1

/-- Keys are bounded byte sequences; we model the bytes as a list of `Nat`. -/
abbrev Key := List Nat

/-- Modelled from the spec: keys have "a total order defined by lexicographic
comparison over `(contents, size)`" — the comparison `sized_strcmp` used by
the walk.  Negative means the first key is smaller. -/
def sized_strcmp : Key → Key → Int
  | [], [] => 0
  | [], _ :: _ => -1
  | _ :: _, [] => 1
  | a :: as, b :: bs => if a < b then -1 else if b < a then 1 else sized_strcmp as bs

/-- A btree value: payload bytes plus the flags the walk inspects
(`has_cas`/`set_cas`, the `expired` predicate — modelled as a stored flag —
and the large-value reference `lb_ref().block_id`, present iff `is_large`). -/
structure BtreeValue where
  contents : List Nat
  has_cas : Bool
  cas : Nat
  expired : Bool
  lbRoot : Option Nat
deriving DecidableEq, Repr

/-- `value.is_large()`. -/
def BtreeValue.is_large (v : BtreeValue) : Bool := v.lbRoot.isSome

/-- Modelled from the spec: an internal node holds separator keys routing to
children, with a rightmost child covering the keys above every separator. -/
structure InternalNode where
  pairs : List (Key × Nat)
  lastChild : Option Nat
deriving DecidableEq, Repr

/-- Number of children of an internal node. -/
def InternalNode.childCount (n : InternalNode) : Nat :=
  n.pairs.length + (if n.lastChild.isSome then 1 else 0)

/-- All child block ids of an internal node. -/
def InternalNode.childIds (n : InternalNode) : List Nat :=
  n.pairs.map (·.2) ++ n.lastChild.toList

/-- A leaf entry: key, value and the timestamp recorded at insertion. -/
abbrev LeafEntry := Key × BtreeValue × Nat

/-- A persisted node: a leaf (with its init timestamp and entries) or an
internal node.  Layouts are opaque to the walk; this is the modelled form. -/
inductive Node
  | leaf (ts : Nat) (entries : List LeafEntry)
  | internal (n : InternalNode)
deriving DecidableEq, Repr

/-- `node::is_leaf`. -/
def Node.isLeaf : Node → Bool
  | .leaf _ _ => true
  | .internal _ => false

/-- `node::is_internal`. -/
def Node.isInternal : Node → Bool
  | .leaf _ _ => false
  | .internal _ => true

/-- Entry/child count of a node, the size measure of the capacity model. -/
def Node.size : Node → Nat
  | .leaf _ es => es.length
  | .internal n => n.childCount

/-- Modelled from the spec: `internal_node::is_full` — no room for another
separator once the child count reaches the block capacity `bs`. -/
def internal_is_full (bs : Nat) (n : InternalNode) : Bool :=
  bs ≤ n.childCount

/-- Modelled from the spec: `leaf::is_full(node, key, value)` — the incoming
pair would not fit.  Capacity is modelled by entry count. -/
def leaf_is_full (bs : Nat) (es : List LeafEntry) (_key : Key) (_v : BtreeValue) : Bool :=
  bs ≤ es.length

/-- Modelled from the spec: `node::is_underfull`, the trigger for
merge/level.  `2*size + 1 < bs` makes both halves of any split of a full
node not underfull, matching the spec invariant that split halves are
valid nodes. -/
def node_is_underfull (bs : Nat) (n : Node) : Bool :=
  2 * n.size + 1 < bs

/-- Modelled from the spec: `node::is_mergable` — two siblings merge only
when the combined content fits one non-full node.  (The real check also
consults the parent for the separator it would absorb; the count model
folds that into the bound.) -/
def node_is_mergable (bs : Nat) (a b : Node) (_parent : InternalNode) : Bool :=
  match a, b with
  | .leaf _ ea, .leaf _ eb => ea.length + eb.length < bs
  | .internal na, .internal nb => na.childCount + nb.childCount < bs
  | _, _ => false

/-- `internal_node::is_singleton`: the parent is down to its final separator,
i.e. exactly two children remain before the separator removal (after the
merge its surviving node is the only real child). -/
def internal_is_singleton (n : InternalNode) : Bool :=
  n.childCount = 2

/-- Key of the `i`-th pair, defaulting to the empty key. -/
def pairKeyAt (ps : List (Key × Nat)) (i : Nat) : Key :=
  ((ps.get? i).map (·.1)).getD []

/-- Child of the `i`-th pair, defaulting to `NULL_BLOCK_ID`. -/
def pairChildAt (ps : List (Key × Nat)) (i : Nat) : Nat :=
  ((ps.get? i).map (·.2)).getD NULL_BLOCK_ID

/-- Key of the `i`-th leaf entry, defaulting to the empty key. -/
def leafKeyAt (es : List LeafEntry) (i : Nat) : Key :=
  ((es.get? i).map (·.1)).getD []

/-- Modelled from the spec: `node::split` — move the upper half of the node
into a fresh right sibling and report the median separator; keys `≤ median`
stay in the left (original) node.  Returns (left, right, median). -/
def node_split : Node → Node × Node × Key
  | .leaf ts es =>
      let m := (es.length + 1) / 2
      (.leaf ts (es.take m), .leaf ts (es.drop m), leafKeyAt es (m - 1))
  | .internal n =>
      let l := n.pairs.length
      let m := (l + 1) / 2
      if m = 0 then
        (.internal n, .internal ⟨[], none⟩, [])
      else
        (.internal ⟨n.pairs.take (m - 1), some (pairChildAt n.pairs (m - 1))⟩,
         .internal ⟨n.pairs.drop m, n.lastChild⟩,
         pairKeyAt n.pairs (m - 1))

/-- Helper for `internal_insert`: place the new separator just before the
pair that currently routes to child `l`, repointing that pair at `r`. -/
def internal_insert_go (med : Key) (l r : Nat) :
    List (Key × Nat) → Option (List (Key × Nat))
  | [] => none
  | (k, c) :: rest =>
      if c = l then some ((med, l) :: (k, r) :: rest)
      else (internal_insert_go med l r rest).map ((k, c) :: ·)

/-- Modelled from the spec: `internal_node::insert(block_size, node, median,
left_id, right_id)` — after a child split, route keys `≤ median` to the left
half and the rest of the old range to the right half.  Returns `none`
(failure) exactly when the node is full. -/
def internal_insert (bs : Nat) (n : InternalNode) (med : Key) (l r : Nat) :
    Option InternalNode :=
  if internal_is_full bs n then none
  else some <|
    match internal_insert_go med l r n.pairs with
    | some ps => ⟨ps, n.lastChild⟩
    | none =>
        match n.lastChild with
        | some lc => if lc = l then ⟨n.pairs ++ [(med, l)], some r⟩
                     else ⟨n.pairs ++ [(med, l)], some lc⟩
        | none => ⟨n.pairs ++ [(med, l)], some r⟩

/-- Helper for `internal_lookup`. -/
def internal_lookup_go (key : Key) : List (Key × Nat) → Option Nat
  | [] => none
  | (k, c) :: rest => if sized_strcmp key k ≤ 0 then some c else internal_lookup_go key rest

/-- Modelled from the spec: `internal_node::lookup` — the child whose range
contains `key` (ties with a separator descend into that separator's child,
i.e. left). -/
def internal_lookup (n : InternalNode) (key : Key) : Nat :=
  match internal_lookup_go key n.pairs with
  | some c => c
  | none => n.lastChild.getD NULL_BLOCK_ID

/-- Index of the pair routing `key`, or `pairs.length` for the last child. -/
def internal_lookup_index_go (key : Key) : List (Key × Nat) → Nat
  | [] => 0
  | (k, _) :: rest =>
      if sized_strcmp key k ≤ 0 then 0 else internal_lookup_index_go key rest + 1

/-- Modelled from the spec: `internal_node::sibling(parent, key, &sib_id)` —
an adjacent sibling of the child containing `key`, together with the node
order: a negative comparison means the key's node lies left of the sibling. -/
def internal_sibling (n : InternalNode) (key : Key) : Int × Nat :=
  let cs := n.childIds
  let i := internal_lookup_index_go key n.pairs
  if i + 1 < cs.length then (-1, (cs.get? (i + 1)).getD NULL_BLOCK_ID)
  else (1, (cs.get? (i - 1)).getD NULL_BLOCK_ID)

/-- Largest (last) key stored in a node, defaulting to the empty key. -/
def node_last_key : Node → Key
  | .leaf _ es => leafKeyAt es (es.length - 1)
  | .internal n => pairKeyAt n.pairs (n.pairs.length - 1)

/-- The parent separator sitting just above key `k` (the first pair key
`≥ k`), used by merge to name the separator it removes. -/
def parent_sep_above (parent : InternalNode) (k : Key) : Key :=
  match internal_lookup_go k parent.pairs, internal_lookup_index_go k parent.pairs with
  | some _, i => pairKeyAt parent.pairs i
  | none, _ => []

/-- Modelled from the spec: `node::merge(block_size, left, right, out
removed_sep, parent)` — append the left node's content onto the right one
(the combined node lives in the right block) and report the parent separator
that must disappear. -/
def node_merge (a b : Node) (parent : InternalNode) : Node × Key :=
  match a, b with
  | .leaf ta ea, .leaf _ eb =>
      (.leaf ta (ea ++ eb), parent_sep_above parent (node_last_key (.leaf ta ea)))
  | .internal na, .internal nb =>
      let sep := parent_sep_above parent (node_last_key (.internal na))
      let merged : InternalNode :=
        match na.lastChild with
        | some lc => ⟨na.pairs ++ (sep, lc) :: nb.pairs, nb.lastChild⟩
        | none => ⟨na.pairs ++ nb.pairs, nb.lastChild⟩
      (.internal merged, sep)
  | _, _ => (a, [])

/-- Modelled from the spec: `internal_node::remove` — delete the pair whose
key is the removed separator. -/
def internal_remove (n : InternalNode) (key : Key) : InternalNode :=
  ⟨n.pairs.eraseP (fun p => sized_strcmp p.1 key = 0), n.lastChild⟩

/-- Modelled from the spec: `internal_node::update_key` — replace the
separator `old` by `new'` while keeping its child. -/
def internal_update_key (n : InternalNode) (old new' : Key) : InternalNode :=
  ⟨n.pairs.map (fun p => if sized_strcmp p.1 old = 0 then (new', p.2) else p), n.lastChild⟩

/-- Modelled from the spec: `node::level` — redistribute entries from a
larger sibling into the underfull node, reporting the parent separator to
replace and its replacement.  Returns `none` when nothing was moved. -/
def node_level (a b : Node) (parent : InternalNode) :
    Option (Node × Node × Key × Key) :=
  match a, b with
  | .leaf ta ea, .leaf tb eb =>
      if eb.length ≤ ea.length + 1 then none
      else
        let m := (eb.length - ea.length) / 2
        let ea' := ea ++ eb.take m
        some (.leaf ta ea', .leaf tb (eb.drop m),
              parent_sep_above parent (node_last_key (.leaf ta ea)),
              leafKeyAt ea' (ea'.length - 1))
  | .internal na, .internal nb =>
      if nb.childCount ≤ na.childCount + 1 then none
      else
        let m := (nb.childCount - na.childCount) / 2
        let sep := parent_sep_above parent (node_last_key (.internal na))
        let movedSep := pairKeyAt nb.pairs (m - 1)
        let na' : InternalNode :=
          match na.lastChild with
          | some lc =>
              ⟨na.pairs ++ (sep, lc) :: nb.pairs.take (m - 1),
               some (pairChildAt nb.pairs (m - 1))⟩
          | none => ⟨na.pairs ++ nb.pairs.take (m - 1), some (pairChildAt nb.pairs (m - 1))⟩
        some (.internal na', .internal ⟨nb.pairs.drop m, nb.lastChild⟩, sep, movedSep)
  | _, _ => none

/-- Helper for `leaf_lookup`. -/
def leaf_lookup_go (key : Key) : List LeafEntry → Option BtreeValue
  | [] => none
  | (k, v, _) :: rest => if sized_strcmp key k = 0 then some v else leaf_lookup_go key rest

/-- Modelled from the spec: `leaf::lookup(node, key, &value_out)`. -/
def leaf_lookup (es : List LeafEntry) (key : Key) : Option BtreeValue :=
  leaf_lookup_go key es

/-- Modelled from the spec: the entry update performed by `leaf::insert` —
replace the value at `key` or insert a new entry in key order. -/
def leaf_upsert (key : Key) (v : BtreeValue) (ts : Nat) : List LeafEntry → List LeafEntry
  | [] => [(key, v, ts)]
  | (k, w, t) :: rest =>
      if sized_strcmp key k = 0 then (key, v, ts) :: rest
      else if sized_strcmp key k < 0 then (key, v, ts) :: (k, w, t) :: rest
      else (k, w, t) :: leaf_upsert key v ts rest

/-- Modelled from the spec: `leaf::remove`. -/
def leaf_remove (key : Key) : List LeafEntry → List LeafEntry
  | [] => []
  | (k, w, t) :: rest =>
      if sized_strcmp key k = 0 then rest else (k, w, t) :: leaf_remove key rest

/-! ## The buffer cache and the walk state

The transactional buffer cache is modelled as a pure store: an association
list from block ids to nodes, the superblock's `root_block` field, an
allocation counter, and the sets of blocks / large-value roots marked
deleted in this transaction.  A `buf_lock_t` is an (acquired?, block id)
pair; data reads and writes go through the store at the lock's id. -/

/-- Helper: read a block. -/
def storeGet : List (Nat × Node) → Nat → Option Node
  | [], _ => none
  | (i, n) :: rest, j => if i = j then some n else storeGet rest j

/-- Helper: write a block (replacing any previous content). -/
def storeSet : List (Nat × Node) → Nat → Node → List (Nat × Node)
  | [], j, m => [(j, m)]
  | (i, n) :: rest, j, m => if i = j then (j, m) :: rest else (i, n) :: storeSet rest j m

/-- The persistent state touched by one modify transaction. -/
structure Store where
  blocks : List (Nat × Node)
  superRoot : Nat
  nextId : Nat
  deletedBlocks : List Nat
  deletedLargeRoots : List Nat
deriving DecidableEq, Repr

/-- Read the node stored at a block id. -/
def Store.getNode (s : Store) (i : Nat) : Option Node := storeGet s.blocks i

/-- Write the node stored at a block id (a `get_data_write` view). -/
def Store.setNode (s : Store) (i : Nat) (n : Node) : Store :=
  { s with blocks := storeSet s.blocks i n }

/-- `buf.allocate(txor)`: hand out a fresh block id. -/
def Store.allocate (s : Store) : Nat × Store :=
  (s.nextId, { s with nextId := s.nextId + 1 })

/-- `buf.mark_deleted()`. -/
def Store.markDeleted (s : Store) (i : Nat) : Store :=
  { s with deletedBlocks := i :: s.deletedBlocks }

/-- `large_buf->mark_deleted()` on a large-value root. -/
def Store.markLargeDeleted (s : Store) (i : Nat) : Store :=
  { s with deletedLargeRoots := i :: s.deletedLargeRoots }

/-- A `buf_lock_t`: either unacquired or an exclusive hold on a block id. -/
structure BufLock where
  acq : Bool
  id : Nat
deriving DecidableEq, Repr

/-- An unacquired lock (`buf_lock_t()`). -/
def BufLock.none' : BufLock := ⟨false, 0⟩

/-- The walk's mutable state: the store plus the cursor triple
`(sb_buf, last_buf, buf)`, the `pm_btree_depth` counter and the slice's
CAS-generation state. -/
structure WalkState where
  store : Store
  sb : BufLock
  last : BufLock
  buf : BufLock
  depth : Int
  casCtr : Nat
deriving DecidableEq, Repr

/-- Every `rassert`/`guarantee` in the walk, modelled as an error result
(the spec classifies these as fatal programmer-invariant violations), plus
fuel exhaustion for the descent loop. -/
inductive RErr
  | insertRootNoSb
  | missingBlock
  | castFail
  | splitNeedsValue
  | splitInternalHasValue
  | internalInsertFailed
  | childIdInvalid
  | largeInconsistent
  | leafInsertFailed
  | bufNotAcquired
  | oldNewLargeBoth
  | oldLargeNotLarge
  | outOfFuel
deriving DecidableEq, Repr

/-! ## The walk (translated from `src/btree/modify_oper.cc`) -/

/-- `insert_root(root_id, sb_buf)`: `rassert(sb_buf.is_acquired())`, write
`root_id` into the superblock's `root_block` field, release `sb_buf`.
Returns the updated superblock lock and store. -/
def insert_root (root_id : Nat) (sb : BufLock) (st : Store) :
    Except RErr (BufLock × Store) :=
  if sb.acq then .ok (⟨false, sb.id⟩, { st with superRoot := root_id })
  else .error .insertRootNoSb

/-- `check_and_handle_split`: split `buf` if it is full (a leaf is checked
against the incoming `new_value`, an internal node unconditionally), insert
the median into the parent — creating a new root when `last_buf` is not
acquired — and redirect `buf` to the half containing `key`. -/
def check_and_handle_split (bs : Nat) (key : Key) (new_value : Option BtreeValue)
    (s : WalkState) : Except RErr WalkState := do
  let some node := s.store.getNode s.buf.id | throw .missingBlock
  let full ←
    match node, new_value with
    | .leaf _ es, some v => pure (leaf_is_full bs es key v)
    | .leaf _ _, none => throw .splitNeedsValue
    | .internal n, none => pure (internal_is_full bs n)
    | .internal _, some _ => throw .splitInternalHasValue
  if !full then return s
  let (rid, st1) := s.store.allocate
  let (lnode, rnode, median) := node_split node
  let st2 := (st1.setNode s.buf.id lnode).setNode rid rnode
  let (lastB, sbB, st3, depth1) ←
    if !s.last.acq then do
      let (pid, sta) := st2.allocate
      let stb := sta.setNode pid (.internal ⟨[], none⟩)
      let (sb', stc) ← insert_root pid s.sb stb
      pure ((⟨true, pid⟩ : BufLock), sb', stc, s.depth + 1)
    else
      pure (s.last, s.sb, st2, s.depth)
  let some pnode := st3.getNode lastB.id | throw .missingBlock
  let .internal parent := pnode | throw .castFail
  let some parent' := internal_insert bs parent median s.buf.id rid
    | throw .internalInsertFailed
  let st4 := st3.setNode lastB.id (.internal parent')
  let buf' : BufLock := if 0 ≥ sized_strcmp key median then s.buf else ⟨true, rid⟩
  return { s with store := st4, sb := sbB, last := lastB, buf := buf', depth := depth1 }

/-- `check_and_handle_underfull`: when `last_buf` is acquired and `buf` is
underfull, merge with or level against a sibling; a merge removes the
separator from the parent, or — when the parent was down to its final
separator — retires the parent as a redundant root. -/
def check_and_handle_underfull (bs : Nat) (key : Key) (s : WalkState) :
    Except RErr WalkState := do
  let some node := s.store.getNode s.buf.id | throw .missingBlock
  if s.last.acq && node_is_underfull bs node then
    let some pnode := s.store.getNode s.last.id | throw .missingBlock
    let .internal parent := pnode | throw .castFail
    let (ncmp, sibId) := internal_sibling parent key
    let some sibNode := s.store.getNode sibId | throw .missingBlock
    if node_is_mergable bs node sibNode parent then
      let (st1, buf', keyToRemove) ←
        if ncmp < 0 then
          let (merged, ktr) := node_merge node sibNode parent
          pure (((s.store.setNode sibId merged).markDeleted s.buf.id,
                 (⟨true, sibId⟩ : BufLock), ktr))
        else
          let (merged, ktr) := node_merge sibNode node parent
          pure (((s.store.setNode s.buf.id merged).markDeleted sibId, s.buf, ktr))
      if !(internal_is_singleton parent) then
        let st2 := st1.setNode s.last.id (.internal (internal_remove parent keyToRemove))
        return { s with store := st2, buf := buf' }
      else
        let st2 := st1.markDeleted s.last.id
        let (sb', st3) ← insert_root buf'.id s.sb st2
        return { s with store := st3, sb := sb', buf := buf', depth := s.depth - 1 }
    else
      match node_level node sibNode parent with
      | some (a', b', keyToReplace, replacementKey) =>
          let st1 := (s.store.setNode s.buf.id a').setNode sibId b'
          let st2 := st1.setNode s.last.id
            (.internal (internal_update_key parent keyToReplace replacementKey))
          return { s with store := st2 }
      | none => return s
  else
    return s

/-- `get_root`: `rassert(!buf_out->is_acquired())`; acquire the root named
by the superblock, or — on an empty tree — allocate a fresh block,
initialize it as an empty leaf stamped `current_time()` (the `tstamp`
parameter), install it as root and bump the depth counter. -/
def get_root (tstamp : Nat) (s : WalkState) : Except RErr WalkState := do
  if s.buf.acq then throw .bufNotAcquired
  let rootId := s.store.superRoot
  if rootId ≠ NULL_BLOCK_ID then
    return { s with buf := ⟨true, rootId⟩ }
  else
    let (nid, st1) := s.store.allocate
    let st2 := st1.setNode nid (.leaf tstamp [])
    let (sb', st3) ← insert_root nid s.sb st2
    return { s with store := st3, sb := sb', buf := ⟨true, nid⟩, depth := s.depth + 1 }

/-- The first part of one descent-loop iteration (source lines 190–202):
proactively split the internal node, merge/level it if underfull, then
release the superblock once both it and `last_buf` are held. -/
def descendRelease (bs : Nat) (key : Key) (s : WalkState) : Except RErr WalkState := do
  let s1 ← check_and_handle_split bs key none s
  let s2 ← check_and_handle_underfull bs key s1
  if s2.sb.acq && s2.last.acq then
    return { s2 with sb := ⟨false, s2.sb.id⟩ }
  else
    return s2

/-- The second part of one descent-loop iteration (source lines 207–213):
look up the child for `key` — which must be neither `NULL` nor the
superblock — acquire it, and rotate the cursor (hand-over-hand). -/
def descendLookup (key : Key) (s : WalkState) : Except RErr WalkState := do
  let some n := s.store.getNode s.buf.id | throw .missingBlock
  let .internal inode := n | throw .castFail
  let cid := internal_lookup inode key
  if cid = NULL_BLOCK_ID || cid = SUPERBLOCK_ID then throw .childIdInvalid
  return { s with last := s.buf, buf := ⟨true, cid⟩ }

/-- One full iteration of the descent loop. -/
def descendStep (bs : Nat) (key : Key) (s : WalkState) : Except RErr WalkState := do
  descendLookup key (← descendRelease bs key s)

/-- The descent loop (`while node::is_internal(buf) ...`), with fuel. -/
def descend (bs : Nat) (key : Key) : Nat → WalkState → Except RErr WalkState
  | 0, s => do
      let some n := s.store.getNode s.buf.id | throw .missingBlock
      if n.isInternal then throw .outOfFuel else return s
  | fuel + 1, s => do
      let some n := s.store.getNode s.buf.id | throw .missingBlock
      if n.isInternal then descend bs key fuel (← descendStep bs key s)
      else return s

/-! ## The operator bridge -/

/-- What one call of `btree_modify_oper_t::operate` returns: the
`update_needed` flag, the new value (or null), whether the out-parameter
`new_large_buflock` holds a large buf and, if so, its root block id, and
whether the operator left the `old_large_buflock` it was handed still
loaded (`has_lv`) when it returned. -/
structure OperResult where
  update_needed : Bool
  new_value : Option BtreeValue
  new_has_lv : Bool
  new_lv_root : Nat
  keeps_old_handle : Bool
deriving DecidableEq, Repr

/-- A `btree_modify_oper_t`: its `cas_already_set` flag and its `operate`
callback, abstracted as a function of the old value it is shown (`none`
when the key was not found or its value expired). -/
structure ModifyOper where
  cas_already_set : Bool
  operate : Option BtreeValue → OperResult

/-- `slice->gen_cas()`: the slice's monotone CAS generator, modelled as a
counter; returns the fresh CAS and the new counter state. -/
def gen_cas (ctr : Nat) : Nat × Nat := (ctr + 1, ctr + 1)

/-- Source lines 265–298: apply the computed mutation to the leaf.  On the
insert/replace path: split the leaf if the value would not fit, lazily fill
the CAS exactly when `new_value->has_cas() && !oper->cas_already_set`, then
`leaf::insert` (which must succeed).  On the delete path: remove the key if
it was found or expired.  Finally re-check the leaf for underfullness. -/
def applyUpdate (bs : Nat) (key : Key) (oper : ModifyOper) (tstamp : Nat)
    (key_found expired : Bool) (new_value : Option BtreeValue) (s : WalkState) :
    Except RErr WalkState := do
  match new_value with
  | some nv => do
      let s1 ← check_and_handle_split bs key (some nv) s
      let (nv', ctr') :=
        if nv.has_cas && !oper.cas_already_set then
          let (c, ctr) := gen_cas s1.casCtr
          ({ nv with cas := c }, ctr)
        else (nv, s1.casCtr)
      let some n := s1.store.getNode s1.buf.id | throw .missingBlock
      let .leaf lts es := n | throw .castFail
      if leaf_is_full bs es key nv' then throw .leafInsertFailed
      let s2 := { s1 with
        store := s1.store.setNode s1.buf.id (.leaf lts (leaf_upsert key nv' tstamp es)),
        casCtr := ctr' }
      check_and_handle_underfull bs key s2
  | none => do
      let s1 ←
        if key_found || expired then do
          let some n := s.store.getNode s.buf.id | throw .missingBlock
          let .leaf lts es := n | throw .castFail
          pure { s with store := s.store.setNode s.buf.id (.leaf lts (leaf_remove key es)) }
        else
          pure s
      check_and_handle_underfull bs key s1

/-- Source lines 216–319: the walk after the descent has reached the leaf.
Look the key up, load the old large value's handle if there is one, treat
an expired value as not found, run the operator, check the consistency of
its outputs, coerce an operator refusal on an expired key into a silent
deletion, apply the update, release the bufs, and delete the old large
value when the operator switched away from it. -/
def leafStage (bs : Nat) (key : Key) (oper : ModifyOper) (tstamp : Nat)
    (s : WalkState) : Except RErr WalkState := do
  let some n := s.store.getNode s.buf.id | throw .missingBlock
  let .leaf _ es := n | throw .castFail
  let found0 := (leaf_lookup es key).isSome
  let old_value := (leaf_lookup es key).getD ⟨[], false, 0, false, none⟩
  let oldLargeLoaded := found0 && old_value.is_large
  let expired := found0 && old_value.expired
  let key_found := found0 && !expired
  let r := oper.operate (if key_found then some old_value else none)
  if r.update_needed then
    match r.new_value with
    | some nv =>
        if nv.is_large then
          if !(r.new_has_lv && nv.lbRoot = some r.new_lv_root) then
            throw .largeInconsistent
        else
          if r.new_has_lv then throw .largeInconsistent
    | none => if r.new_has_lv then throw .largeInconsistent
  else
    if r.new_has_lv then throw .largeInconsistent
  let (update_needed, new_value) :=
    if !r.update_needed && expired then (true, none) else (r.update_needed, r.new_value)
  let s1 ←
    if update_needed then applyUpdate bs key oper tstamp key_found expired new_value s
    else pure s
  if !s1.buf.acq then throw .bufNotAcquired
  let s2 := { s1 with
    sb := ⟨false, s1.sb.id⟩, buf := ⟨false, s1.buf.id⟩, last := ⟨false, s1.last.id⟩ }
  if update_needed && (oldLargeLoaded && r.keeps_old_handle) then
    if r.new_has_lv then throw .oldNewLargeBoth
    if !old_value.is_large then throw .oldLargeNotLarge
    return { s2 with store := s2.store.markLargeDeleted (old_value.lbRoot.getD NULL_BLOCK_ID) }
  else
    return s2

/-- `run_btree_modify_oper(oper, slice, key)`: acquire the superblock,
obtain the root, walk down to the leaf, and run the leaf stage.  `tstamp`
stands for `current_time()`, `casCtr0` for the slice's CAS-generation
state, `depth0` for `pm_btree_depth`, and `fuel` bounds the descent. -/
def run_btree_modify_oper (bs : Nat) (oper : ModifyOper) (key : Key) (tstamp : Nat)
    (casCtr0 : Nat) (depth0 : Int) (fuel : Nat) (store0 : Store) :
    Except RErr WalkState := do
  let s0 : WalkState :=
    { store := store0, sb := ⟨true, SUPERBLOCK_ID⟩, last := BufLock.none',
      buf := BufLock.none', depth := depth0, casCtr := casCtr0 }
  let s1 ← get_root tstamp s0
  let s2 ← descend bs key fuel s1
  leafStage bs key oper tstamp s2

/-! ## Derived definitions and concrete fixtures -/

/-- The condition under which `check_and_handle_split` actually splits
(source lines 43–49): a leaf is split when the incoming value does not fit,
an internal node when it is full. -/
def split_triggers (bs : Nat) (key : Key) (nv : Option BtreeValue) : Node → Bool
  | .leaf _ es => (match nv with | some v => leaf_is_full bs es key v | none => false)
  | .internal n => (match nv with | none => internal_is_full bs n | some _ => false)

/-- A store whose tree is a single leaf root at block 2. -/
def leafRootStore (es : List LeafEntry) : Store := ⟨[(2, Node.leaf 0 es)], 2, 3, [], []⟩

/-- The leaf entries reachable through the superblock's root, when the root
is a leaf. -/
def leafEntriesAtRoot (t : WalkState) : Option (List LeafEntry) :=
  match t.store.getNode t.store.superRoot with
  | some (.leaf _ es) => some es
  | _ => none

/-- Fixture for the split-redirect witness: `buf` is a full internal node
(4 children at `bs = 4`), `last` a non-full internal parent. -/
def c2s : WalkState :=
  { store := ⟨[(2, .internal ⟨[([1],3),([3],4),([5],5)], some 6⟩),
               (7, .internal ⟨[([9], 2)], some 8⟩)], 7, 10, [], []⟩,
    sb := ⟨true, 1⟩, last := ⟨true, 7⟩, buf := ⟨true, 2⟩, depth := 2, casCtr := 0 }

/-- Result of `check_and_handle_split 4 [4] none c2s`. -/
def c2t : WalkState :=
  { store := ⟨[(2, .internal ⟨[([1],3)], some 4⟩),
               (7, .internal ⟨[([3],2),([9],10)], some 8⟩),
               (10, .internal ⟨[([5],5)], some 6⟩)], 7, 11, [], []⟩,
    sb := ⟨true, 1⟩, last := ⟨true, 7⟩, buf := ⟨true, 10⟩, depth := 2, casCtr := 0 }

/-- Fixture for the singleton-collapse witness: a two-child root over two
underfull, mergable leaves. -/
def c5parent : InternalNode := ⟨[([3],3)], some 4⟩

/-- The underfull leaf being visited in the collapse fixture. -/
def c5nd : Node := .leaf 0 [([1], ⟨[1],false,0,false,none⟩, 0), ([2], ⟨[2],false,0,false,none⟩, 0)]

/-- Its right sibling in the collapse fixture. -/
def c5sib : Node := .leaf 0 [([5], ⟨[5],false,0,false,none⟩, 0), ([6], ⟨[6],false,0,false,none⟩, 0)]

/-- The walk state of the collapse fixture. -/
def c5s : WalkState :=
  { store := ⟨[(2, .internal c5parent), (3, c5nd), (4, c5sib)], 2, 5, [], []⟩,
    sb := ⟨true, 1⟩, last := ⟨true, 2⟩, buf := ⟨true, 3⟩, depth := 2, casCtr := 0 }

/-- Result of `check_and_handle_underfull 8 [1] c5s`: the leaves merged into
block 4, the root collapsed. -/
def c5t : WalkState :=
  { store := ⟨[(2, .internal c5parent), (3, c5nd),
               (4, .leaf 0 [([1], ⟨[1],false,0,false,none⟩, 0), ([2], ⟨[2],false,0,false,none⟩, 0),
                            ([5], ⟨[5],false,0,false,none⟩, 0), ([6], ⟨[6],false,0,false,none⟩, 0)])],
              4, 5, [2, 3], []⟩,
    sb := ⟨false, 1⟩, last := ⟨true, 2⟩, buf := ⟨true, 4⟩, depth := 1, casCtr := 0 }

/-- Fixture for the superblock-release witness: sb and last both acquired,
buf a healthy internal node (`bs = 4`). -/
def c7s : WalkState :=
  { store := ⟨[(2, .internal ⟨[([3],3)], some 4⟩),
               (5, .internal ⟨[([1],2)], some 6⟩)], 5, 7, [], []⟩,
    sb := ⟨true, 1⟩, last := ⟨true, 5⟩, buf := ⟨true, 2⟩, depth := 2, casCtr := 0 }

/-- Result of `descendRelease 4 [1] c7s`: only the superblock is released. -/
def c7t : WalkState :=
  { store := c7s.store, sb := ⟨false, 1⟩, last := ⟨true, 5⟩, buf := ⟨true, 2⟩,
    depth := 2, casCtr := 0 }

/-- The old large value of the large-value-swap scenario (root block 50). -/
def c1vOld : BtreeValue := ⟨[1], false, 0, false, some 50⟩

/-- The new large value of the large-value-swap scenario (root block 60). -/
def c1vNew : BtreeValue := ⟨[2], false, 0, false, some 60⟩

/-- An operator performing a large-to-large replacement that returns its new
large buf in `new_large_buflock` and has released the old handle. -/
def c1oper : ModifyOper := ⟨false, fun _ => ⟨true, some c1vNew, true, 60, false⟩⟩

/-- The small replacement value of the large-to-small scenario. -/
def c1vSmall : BtreeValue := ⟨[3], false, 0, false, none⟩

/-- A large-to-small replacement operator leaving the old handle loaded. -/
def c1operSmall : ModifyOper := ⟨false, fun _ => ⟨true, some c1vSmall, false, 0, true⟩⟩

/-- An expired (and not large) value for the silent-deletion scenario. -/
def c3v : BtreeValue := ⟨[9], false, 0, true, none⟩

/-- An operator that refuses to make a change. -/
def c3oper : ModifyOper := ⟨false, fun _ => ⟨false, none, false, 0, true⟩⟩

/-- A live (non-expired) value for the operator-refusal scenario. -/
def c9v : BtreeValue := ⟨[9], false, 0, false, some 42⟩

/-- An operator that refuses to make a change (refusal scenario copy). -/
def c9oper : ModifyOper := ⟨false, fun _ => ⟨false, none, false, 0, true⟩⟩

/-- A CAS-carrying small value for the CAS-discipline scenario. -/
def c4v : BtreeValue := ⟨[7], true, 0, false, none⟩

/-- An operator inserting `c4v` with `cas_already_set = false`. -/
def c4oper : ModifyOper := ⟨false, fun _ => ⟨true, some c4v, false, 0, true⟩⟩

/-! ## Well-formedness predicates and walk invariants -/

/-- Modelled from the spec: a persisted node fits its block — its entry or
child count is within the block capacity — and an internal node missing its
rightmost child is still in its freshly initialized (empty) form. -/
def nodeOK (bs : Nat) : Node → Prop
  | .leaf _ es => es.length ≤ bs
  | .internal n => n.childCount ≤ bs ∧ (n.lastChild = none → n.pairs = [])

/-- Every block of the store holds a node that fits its block. -/
def storeNodesOK (bs : Nat) (st : Store) : Prop := ∀ p ∈ st.blocks, nodeOK bs p.2

/-- The spec's global invariant "every non-root node satisfies
`!is_underfull`". -/
def storeNonRootFilled (bs : Nat) (st : Store) : Prop :=
  ∀ p ∈ st.blocks, p.1 ≠ st.superRoot → node_is_underfull bs p.2 = false

/-- The root is nobody's child (the tree has no cycles through the root). -/
def storeNoRootChild (st : Store) : Prop :=
  ∀ p ∈ st.blocks, ∀ n, p.2 = Node.internal n → st.superRoot ∉ n.childIds

/-- All block ids in use lie below the allocation counter and above the
reserved `NULL`/superblock ids. -/
def storeBounded (st : Store) : Prop :=
  st.superRoot < st.nextId ∧ SUPERBLOCK_ID < st.nextId ∧
  ∀ p ∈ st.blocks, SUPERBLOCK_ID < p.1 ∧ p.1 < st.nextId ∧
    ∀ n, p.2 = Node.internal n → ∀ c ∈ n.childIds, c < st.nextId

/-- `storeNodesOK` phrased over reads (robust to shadowed duplicates). -/
def gNodesOK (bs : Nat) (st : Store) : Prop :=
  ∀ i n, storeGet st.blocks i = some n → nodeOK bs n

/-- `storeNonRootFilled` phrased over reads. -/
def gFilled (bs : Nat) (st : Store) : Prop :=
  ∀ i n, storeGet st.blocks i = some n → i ≠ st.superRoot →
    node_is_underfull bs n = false

/-- `storeNoRootChild` phrased over reads. -/
def gNoRootChild (st : Store) : Prop :=
  ∀ i m, storeGet st.blocks i = some (Node.internal m) → st.superRoot ∉ m.childIds

/-- `storeBounded` phrased over reads. -/
def gBounded (st : Store) : Prop :=
  st.superRoot < st.nextId ∧ SUPERBLOCK_ID < st.nextId ∧
  ∀ i n, storeGet st.blocks i = some n → SUPERBLOCK_ID < i ∧ i < st.nextId ∧
    ∀ m, n = Node.internal m → ∀ c ∈ m.childIds, c < st.nextId

/-- The invariant of the descent loop, holding at every iteration entry. -/
structure WalkInv (bs : Nat) (s : WalkState) : Prop where
  nodesOK : gNodesOK bs s.store
  filled : gFilled bs s.store
  rootChild : gNoRootChild s.store
  bounded : gBounded s.store
  bufAcq : s.buf.acq = true
  held : s.sb.acq = true ∨ s.last.acq = true
  noLast : s.last.acq = false → s.buf.id = s.store.superRoot
  atRoot : s.buf.id = s.store.superRoot → s.sb.acq = true ∧ s.last.acq = false
  bufLt : s.buf.id < s.store.nextId
  lastRoot : s.last.acq = true → s.last.id = s.store.superRoot → s.sb.acq = true
  lastLt : s.last.acq = true → s.last.id < s.store.nextId
  parentNotFull : s.last.acq = true → ∀ n,
    s.store.getNode s.last.id = some (Node.internal n) → internal_is_full bs n = false

/-- The state right after the proactive split, before the loop's underfull
check and superblock release. -/
structure MidInv (bs : Nat) (s : WalkState) : Prop where
  nodesOK : gNodesOK bs s.store
  filled : gFilled bs s.store
  rootChild : gNoRootChild s.store
  bounded : gBounded s.store
  bufAcq : s.buf.acq = true
  held : s.sb.acq = true ∨ s.last.acq = true
  noLast : s.last.acq = false → s.buf.id = s.store.superRoot
  atRoot : s.buf.id = s.store.superRoot → s.sb.acq = true ∧ s.last.acq = false
  bufLt : s.buf.id < s.store.nextId
  lastLt : s.last.acq = true → s.last.id < s.store.nextId
  bufNode : ∃ n', s.store.getNode s.buf.id = some (Node.internal n') ∧
    internal_is_full bs n' = false ∧
    (s.last.acq = true → node_is_underfull bs (Node.internal n') = false)

/-- `buf` holds a freshly created empty leaf (the empty-tree case). -/
def emptyLeafBuf (s : WalkState) : Prop :=
  ∃ ts, s.store.getNode s.buf.id = some (Node.leaf ts [])

/-- The invariant of the state handed to the leaf stage. -/
structure LeafInv (bs : Nat) (s : WalkState) : Prop where
  nodesOK : gNodesOK bs s.store
  filled : gFilled bs s.store
  bounded : gBounded s.store
  bufAcq : s.buf.acq = true
  bufLt : s.buf.id < s.store.nextId
  noLast : s.last.acq = false → s.buf.id = s.store.superRoot
  atRootNoLast : s.buf.id = s.store.superRoot → s.last.acq = false
  lastRoot : s.last.acq = true → s.last.id = s.store.superRoot → s.sb.acq = true
  parentNotFull : s.last.acq = true → ∀ n,
    s.store.getNode s.last.id = some (Node.internal n) → internal_is_full bs n = false
  held : s.sb.acq = true ∨ s.last.acq = true ∨ emptyLeafBuf s

/-! ## Helper lemmas -/

theorem storeGet_set_self (bl : List (Nat × Node)) (i : Nat) (n : Node) :
    storeGet (storeSet bl i n) i = some n := by
  induction bl with
  | nil => simp [storeSet, storeGet]
  | cons p rest ih =>
    obtain ⟨j, m⟩ := p
    by_cases h : j = i <;> simp [storeSet, storeGet, h, ih]

theorem insert_root_acq {sb : BufLock} (h : sb.acq = true) (rid : Nat) (st : Store) :
    insert_root rid sb st = Except.ok (⟨false, sb.id⟩, { st with superRoot := rid }) := by
  simp [insert_root, h]

theorem insert_root_not_acq {sb : BufLock} (h : sb.acq = false) (rid : Nat) (st : Store) :
    insert_root rid sb st = Except.error RErr.insertRootNoSb := by
  simp [insert_root, h]

theorem split_cursor (bs : Nat) (key : Key) (nv : Option BtreeValue) (s t : WalkState)
    (hok : check_and_handle_split bs key nv s = Except.ok t) :
    (s.last.acq = true → t.last = s.last ∧ t.sb = s.sb) ∧
    (s.last.acq = false → (t.last.acq = true ∧ t.sb.acq = false) ∨ t = s) := by
  constructor
  · intro hl
    simp only [check_and_handle_split, bind, Except.bind, pure, Except.pure, hl,
      Bool.not_true, Bool.false_eq_true, if_false] at hok
    repeat' split at hok
    all_goals try rw [Except.ok.injEq] at hok
    all_goals first
      | exact Except.noConfusion hok
      | (subst hok; exact ⟨rfl, rfl⟩)
  · intro hl
    by_cases hsb : s.sb.acq = true
    · simp only [check_and_handle_split, bind, Except.bind, pure, Except.pure, hl,
        Bool.not_false, if_true, insert_root_acq hsb] at hok
      repeat' split at hok
      all_goals try rw [Except.ok.injEq] at hok
      all_goals first
        | exact Except.noConfusion hok
        | (subst hok; exact Or.inl ⟨rfl, rfl⟩)
        | (subst hok; exact Or.inr rfl)
    · have hsb' : s.sb.acq = false := by revert hsb; cases s.sb.acq <;> simp
      simp only [check_and_handle_split, bind, Except.bind, pure, Except.pure, hl,
        Bool.not_false, if_true, insert_root_not_acq hsb'] at hok
      repeat' split at hok
      all_goals try rw [Except.ok.injEq] at hok
      all_goals first
        | exact Except.noConfusion hok
        | (subst hok; exact Or.inl ⟨rfl, rfl⟩)
        | (subst hok; exact Or.inr rfl)

theorem underfull_cursor (bs : Nat) (key : Key) (s u : WalkState)
    (hok : check_and_handle_underfull bs key s = Except.ok u) :
    u.last = s.last ∧ (u.sb = s.sb ∨ u.sb.acq = false) ∧
    (s.last.acq = false → u = s) := by
  by_cases hl : s.last.acq = true
  · simp only [check_and_handle_underfull, bind, Except.bind, pure, Except.pure, hl,
      Bool.true_and] at hok
    by_cases hsb : s.sb.acq = true
    · simp only [insert_root_acq hsb] at hok
      repeat' split at hok
      all_goals try rw [Except.ok.injEq] at hok
      all_goals first
        | exact Except.noConfusion hok
        | (subst hok; exact ⟨rfl, Or.inl rfl, fun hc => absurd hl (by simp [hc])⟩)
        | (subst hok; exact ⟨rfl, Or.inr rfl, fun hc => absurd hl (by simp [hc])⟩)
    · have hsb' : s.sb.acq = false := by revert hsb; cases s.sb.acq <;> simp
      simp only [insert_root_not_acq hsb'] at hok
      repeat' split at hok
      all_goals try rw [Except.ok.injEq] at hok
      all_goals first
        | exact Except.noConfusion hok
        | (subst hok; exact ⟨rfl, Or.inl rfl, fun hc => absurd hl (by simp [hc])⟩)
        | (subst hok; exact ⟨rfl, Or.inr rfl, fun hc => absurd hl (by simp [hc])⟩)
  · have hl' : s.last.acq = false := by revert hl; cases s.last.acq <;> simp
    simp only [check_and_handle_underfull, bind, Except.bind, pure, Except.pure, hl',
      Bool.false_and, Bool.false_eq_true, if_false] at hok
    repeat' split at hok
    all_goals try rw [Except.ok.injEq] at hok
    all_goals first
      | exact Except.noConfusion hok
      | (subst hok; exact ⟨rfl, Or.inl rfl, fun _ => rfl⟩)

theorem lookup_cursor (key : Key) (s u : WalkState)
    (hok : descendLookup key s = Except.ok u) :
    u.sb = s.sb ∧ u.last = s.buf := by
  simp only [descendLookup, bind, Except.bind, pure, Except.pure] at hok
  repeat' split at hok
  all_goals try rw [Except.ok.injEq] at hok
  all_goals first
    | exact Except.noConfusion hok
    | (subst hok; exact ⟨rfl, rfl⟩)

/-! ## Claim theorems -/

/-- C2: in `check_and_handle_split`, after the node is split at the median,
the cursor is redirected by comparing the descent key against it: a key
`≤ median` (equality included) leaves `buf` naming the left (original)
block, a key `> median` swaps `buf` to the freshly allocated right
sibling. -/
theorem check_split_redirects_by_median (bs : Nat) (key : Key) (nv : Option BtreeValue)
    (s t : WalkState) (n : Node) (hn : s.store.getNode s.buf.id = some n)
    (hfull : split_triggers bs key nv n = true)
    (hok : check_and_handle_split bs key nv s = Except.ok t) :
    (sized_strcmp key (node_split n).2.2 ≤ 0 → t.buf = s.buf) ∧
    (0 < sized_strcmp key (node_split n).2.2 → t.buf = ⟨true, s.store.nextId⟩) := by
  simp only [check_and_handle_split, hn, bind, Except.bind, pure, Except.pure] at hok
  generalize hsp : node_split n = sp at hok ⊢
  obtain ⟨l', r', med⟩ := sp
  dsimp only at hok ⊢
  cases n with
  | leaf ts es =>
    cases nv with
    | none => simp [split_triggers] at hfull
    | some v =>
      simp only [split_triggers] at hfull
      simp only [hfull, Bool.not_true, Bool.false_eq_true, if_false, insert_root,
        Store.allocate, Store.setNode] at hok
      repeat' split at hok
      all_goals try rw [Except.ok.injEq] at hok
      all_goals first
        | exact Except.noConfusion hok
        | (subst hok
           refine ⟨fun hle => ?_, fun hlt => ?_⟩ <;>
             first
               | rfl
               | exact absurd hle (by omega)
               | exact absurd hlt (by omega))
  | internal inode =>
    cases nv with
    | some v => simp [split_triggers] at hfull
    | none =>
      simp only [split_triggers] at hfull
      simp only [hfull, Bool.not_true, Bool.false_eq_true, if_false, insert_root,
        Store.allocate, Store.setNode] at hok
      repeat' split at hok
      all_goals try rw [Except.ok.injEq] at hok
      all_goals first
        | exact Except.noConfusion hok
        | (subst hok
           refine ⟨fun hle => ?_, fun hlt => ?_⟩ <;>
             first
               | rfl
               | exact absurd hle (by omega)
               | exact absurd hlt (by omega))

/-- Witness for C2 at the concrete fixture: key `[4]` exceeds the median
`[3]`, so the cursor moves to the fresh right sibling (block 10). -/
theorem check_split_redirects_by_median_witness : c2t.buf = ⟨true, 10⟩ :=
  (check_split_redirects_by_median 4 [4] none c2s c2t
     (.internal ⟨[([1],3),([3],4),([5],5)], some 6⟩)
     (by decide) (by decide) (by rfl)).2 (by decide)

/-- C5: in `check_and_handle_underfull`, when a merge leaves the parent a
singleton (its separator count says exactly one child would remain), the
parent is a redundant root: it is marked deleted, the surviving merged
node's id is installed as the new root, and the depth counter is
decremented; when the parent is not a singleton, the removed separator is
deleted from the parent via `internal::remove` and the root is unchanged. -/
theorem check_underfull_singleton_collapse (bs : Nat) (key : Key) (s t : WalkState)
    (nd sibNode : Node) (parent : InternalNode)
    (hlast : s.last.acq = true)
    (hn : s.store.getNode s.buf.id = some nd)
    (hunder : node_is_underfull bs nd = true)
    (hp : s.store.getNode s.last.id = some (Node.internal parent))
    (hsib : s.store.getNode (internal_sibling parent key).2 = some sibNode)
    (hmerge : node_is_mergable bs nd sibNode parent = true)
    (hok : check_and_handle_underfull bs key s = Except.ok t) :
    (internal_is_singleton parent = true →
      t.store.superRoot = t.buf.id ∧ s.last.id ∈ t.store.deletedBlocks ∧
      t.depth = s.depth - 1 ∧ t.sb.acq = false ∧
      t.buf.id = (if (internal_sibling parent key).1 < 0
                  then (internal_sibling parent key).2 else s.buf.id)) ∧
    (internal_is_singleton parent = false →
      t.store.getNode s.last.id = some (.internal (internal_remove parent
        (if (internal_sibling parent key).1 < 0 then (node_merge nd sibNode parent).2
         else (node_merge sibNode nd parent).2))) ∧
      t.store.superRoot = s.store.superRoot ∧ t.depth = s.depth ∧ t.sb = s.sb) := by
  simp only [check_and_handle_underfull, hn, hlast, hunder, Bool.and_self, if_true,
    bind, Except.bind, pure, Except.pure, hp] at hok
  generalize hq : internal_sibling parent key = q at hok hsib ⊢
  obtain ⟨ncmp, sibId⟩ := q
  dsimp only at hok hsib ⊢
  rw [hsib] at hok
  simp only [hmerge, if_true, insert_root, Store.setNode, Store.markDeleted] at hok
  by_cases hsb : s.sb.acq = true
  all_goals simp only [hsb, if_true, if_false] at hok
  all_goals repeat' split at hok
  all_goals try rw [Except.ok.injEq] at hok
  all_goals first
    | exact Except.noConfusion hok
    | (subst hok
       refine ⟨fun hsing => ?_, fun hsing => ?_⟩
       · first
           | (refine ⟨rfl, by simp, rfl, rfl, ?_⟩
              first | rw [if_pos (by omega)] | rw [if_neg (by omega)])
           | simp_all
       · first
           | (refine ⟨?_, rfl, rfl, rfl⟩
              first
                | (rw [if_pos (by omega)]
                   simp [Store.getNode, storeGet_set_self])
                | (rw [if_neg (by omega)]
                   simp [Store.getNode, storeGet_set_self]))
           | simp_all)

/-- Witness for C5 at the concrete fixture: merging the two leaves of a
two-child root retires the root (block 2), installs the merged leaf
(block 4) as root, and decrements the depth counter. -/
theorem check_underfull_singleton_collapse_witness :
    c5t.store.superRoot = c5t.buf.id ∧ c5s.last.id ∈ c5t.store.deletedBlocks ∧
    c5t.depth = c5s.depth - 1 ∧ c5t.sb.acq = false ∧
    c5t.buf.id = (if (internal_sibling c5parent [1]).1 < 0
                  then (internal_sibling c5parent [1]).2 else c5s.buf.id) :=
  (check_underfull_singleton_collapse 8 [1] c5s c5t c5nd c5sib c5parent
     (by decide) (by decide) (by decide) (by decide) (by decide) (by decide)
     (by rfl)).1 (by decide)

/-- C6: `get_root` on an empty tree allocates a fresh block, initializes it
as an empty leaf stamped with the current time, installs it as root
(releasing `sb_buf`) and bumps the depth counter; on a non-empty tree it
acquires the existing root, leaving the store, depth and `sb_buf`
untouched.  In both cases the returned `buf` is acquired, and `sb_buf` is
released iff a new root was installed. -/
theorem get_root_installs_or_acquires (tstamp : Nat) (s : WalkState)
    (hbuf : s.buf.acq = false) :
    (s.store.superRoot = NULL_BLOCK_ID → s.sb.acq = true →
      get_root tstamp s = Except.ok
        { store := { blocks := storeSet s.store.blocks s.store.nextId (Node.leaf tstamp []),
                     superRoot := s.store.nextId, nextId := s.store.nextId + 1,
                     deletedBlocks := s.store.deletedBlocks,
                     deletedLargeRoots := s.store.deletedLargeRoots },
          sb := ⟨false, s.sb.id⟩, last := s.last, buf := ⟨true, s.store.nextId⟩,
          depth := s.depth + 1, casCtr := s.casCtr }) ∧
    (s.store.superRoot ≠ NULL_BLOCK_ID →
      get_root tstamp s = Except.ok { s with buf := ⟨true, s.store.superRoot⟩ }) := by
  constructor
  · intro h0 hsb
    simp [get_root, hbuf, h0, insert_root, hsb, Store.allocate, Store.setNode,
      bind, Except.bind, pure, Except.pure]
  · intro h1
    simp [get_root, hbuf, h1, bind, Except.bind, pure, Except.pure]

/-- Witness for C6: on the empty tree the walk's initial state gets a
fresh leaf root at block 2 and depth goes from 0 to 1. -/
theorem get_root_installs_or_acquires_witness :
    get_root 7 { store := ⟨[], NULL_BLOCK_ID, 2, [], []⟩, sb := ⟨true, 1⟩,
                 last := BufLock.none', buf := BufLock.none', depth := 0, casCtr := 0 } =
      Except.ok { store := ⟨[(2, Node.leaf 7 [])], 2, 3, [], []⟩, sb := ⟨false, 1⟩,
                  last := BufLock.none', buf := ⟨true, 2⟩, depth := 1, casCtr := 0 } :=
  (get_root_installs_or_acquires 7 _ (by decide)).1 (by decide) (by decide)

/-- C7: through one descent-loop iteration, the superblock lock is released
exactly at the first iteration in which both `sb_buf` and `last_buf` are
acquired; it is never re-acquired; after the release point `sb_buf` is held
iff no parent is held (i.e. the walk is still at the root, with no parent
above `buf`); and the lookup/rotate phase never touches `sb_buf`. -/
theorem descent_superblock_release (bs : Nat) (key : Key) (s t : WalkState)
    (hA : descendRelease bs key s = Except.ok t) :
    (s.sb.acq = true → s.last.acq = true → t.sb.acq = false) ∧
    (s.sb.acq = false → t.sb.acq = false) ∧
    ((s.sb.acq = true ∨ s.last.acq = true) → (t.sb.acq = true ↔ t.last.acq = false)) ∧
    (∀ u, descendLookup key t = Except.ok u → u.sb = t.sb) := by
  simp only [descendRelease, bind, Except.bind] at hA
  cases h1 : check_and_handle_split bs key none s with
  | error e => rw [h1] at hA; dsimp only at hA; exact Except.noConfusion hA
  | ok s1 =>
  rw [h1] at hA
  dsimp only at hA
  cases h2 : check_and_handle_underfull bs key s1 with
  | error e => rw [h2] at hA; dsimp only at hA; exact Except.noConfusion hA
  | ok s2 =>
  rw [h2] at hA
  dsimp only at hA
  obtain ⟨sc1, sc2⟩ := split_cursor bs key none s s1 h1
  obtain ⟨uc1, uc2, uc3⟩ := underfull_cursor bs key s1 s2 h2
  have lkp : ∀ (w : WalkState) (u : WalkState), descendLookup key w = Except.ok u → u.sb = w.sb :=
    fun w u h => (lookup_cursor key w u h).1
  split at hA
  case isTrue hcond =>
    simp only [pure, Except.pure, Except.ok.injEq] at hA
    subst hA
    refine ⟨fun _ _ => rfl, fun _ => rfl, fun _ => ?_, fun u h => lkp _ u h⟩
    simp only [Bool.and_eq_true] at hcond
    simp [hcond.2]
  case isFalse hcond =>
    simp only [pure, Except.pure, Except.ok.injEq] at hA
    subst hA
    simp only [Bool.and_eq_true, not_and] at hcond
    have hsb2 : s2.last.acq = true → s2.sb.acq = false := by
      intro hl2
      cases hv : s2.sb.acq
      · rfl
      · exact absurd hl2 (by simp [hcond hv])
    refine ⟨?_, ?_, ?_, fun u h => lkp _ u h⟩
    · intro hsb hlast
      have e1 := (sc1 hlast).1
      have : s2.last.acq = true := by rw [uc1, e1, hlast]
      exact hsb2 this
    · intro hsb
      have hs1 : s1.sb.acq = false := by
        by_cases hl : s.last.acq = true
        · rw [(sc1 hl).2, hsb]
        · have hl' : s.last.acq = false := by revert hl; cases s.last.acq <;> simp
          rcases sc2 hl' with ⟨_, h⟩ | h
          · exact h
          · rw [h, hsb]
      rcases uc2 with h | h
      · rw [h, hs1]
      · exact h
    · intro hyp
      by_cases hl : s.last.acq = true
      · have e1 := (sc1 hl).1
        have hl2 : s2.last.acq = true := by rw [uc1, e1, hl]
        simp [hl2, hsb2 hl2]
      · have hl' : s.last.acq = false := by revert hl; cases s.last.acq <;> simp
        have hsb : s.sb.acq = true := by
          rcases hyp with h | h
          · exact h
          · exact absurd h (by simp [hl'])
        rcases sc2 hl' with ⟨ha, _⟩ | heq
        · have hl2 : s2.last.acq = true := by rw [uc1, ha]
          simp [hl2, hsb2 hl2]
        · subst heq
          have hs2 : s2 = s1 := uc3 hl'
          subst hs2
          simp [hsb, hl']

/-- Witness for C7 at the concrete fixture: with both `sb_buf` and
`last_buf` acquired, the iteration releases the superblock. -/
theorem descent_superblock_release_witness : c7t.sb.acq = false :=
  (descent_superblock_release 4 [1] c7s c7t (by rfl)).1 rfl rfl

/-- C3: when the key is found but its value is expired, the operator is
called with the old value absent (only the operator's behaviour on `none`
matters below), and an operator refusal (`update_needed = false`) is
coerced into a deletion: the expired key is removed from the leaf and the
walk commits normally (an `Except.ok` result), not as an error. -/
theorem expired_key_silent_deletion (oper : ModifyOper) (v : BtreeValue)
    (ts0 tstamp c0 : Nat) (d0 : Int) (fuel : Nat)
    (hexp : v.expired = true) (hsmall : v.lbRoot = none)
    (hr1 : (oper.operate none).update_needed = false)
    (hr2 : (oper.operate none).new_has_lv = false) :
    run_btree_modify_oper 8 oper [5] tstamp c0 d0 fuel (leafRootStore [([5], v, ts0)]) =
      Except.ok { store := ⟨[(2, Node.leaf 0 [])], 2, 3, [], []⟩, sb := ⟨false, 1⟩,
                  last := ⟨false, 0⟩, buf := ⟨false, 2⟩, depth := d0, casCtr := c0 } := by
  cases fuel <;>
    simp [run_btree_modify_oper, get_root, descend, leafStage, applyUpdate,
      leafRootStore, Store.getNode, storeGet, leaf_lookup, leaf_lookup_go, sized_strcmp,
      BtreeValue.is_large, hexp, hsmall, hr1, hr2, bind, Except.bind, pure, Except.pure,
      check_and_handle_underfull, leaf_remove, Store.setNode, storeSet,
      Node.isInternal, NULL_BLOCK_ID, SUPERBLOCK_ID, BufLock.none']

/-- Witness for C3: the expired entry for key `[5]` is silently removed. -/
theorem expired_key_silent_deletion_witness :
    run_btree_modify_oper 8 c3oper [5] 7 0 1 0 (leafRootStore [([5], c3v, 0)]) =
      Except.ok { store := ⟨[(2, Node.leaf 0 [])], 2, 3, [], []⟩, sb := ⟨false, 1⟩,
                  last := ⟨false, 0⟩, buf := ⟨false, 2⟩, depth := 1, casCtr := 0 } :=
  expired_key_silent_deletion c3oper c3v 0 7 0 1 0 (by decide) (by decide) rfl rfl

/-- C9: when the operator returns `update_needed = false` on a live
(non-expired) key, the walk changes nothing: the store — leaf entries,
large-value deletions, structure — the depth counter and the CAS state all
come back exactly as they went in, and the transaction commits
(read-only).  The old value may be large; its root is not marked deleted. -/
theorem operator_refusal_no_change (oper : ModifyOper) (v : BtreeValue)
    (ts0 tstamp c0 : Nat) (d0 : Int) (fuel : Nat)
    (hnexp : v.expired = false)
    (hr1 : (oper.operate (some v)).update_needed = false)
    (hr2 : (oper.operate (some v)).new_has_lv = false) :
    run_btree_modify_oper 8 oper [5] tstamp c0 d0 fuel (leafRootStore [([5], v, ts0)]) =
      Except.ok { store := leafRootStore [([5], v, ts0)], sb := ⟨false, 1⟩,
                  last := ⟨false, 0⟩, buf := ⟨false, 2⟩, depth := d0, casCtr := c0 } := by
  cases fuel <;>
    simp [run_btree_modify_oper, get_root, descend, leafStage, applyUpdate,
      leafRootStore, Store.getNode, storeGet, leaf_lookup, leaf_lookup_go, sized_strcmp,
      BtreeValue.is_large, hnexp, hr1, hr2, bind, Except.bind, pure, Except.pure,
      check_and_handle_underfull, leaf_remove, Store.setNode, storeSet,
      Node.isInternal, NULL_BLOCK_ID, SUPERBLOCK_ID, BufLock.none']

/-- Witness for C9: refusing on a live large value leaves the store
untouched (in particular the large root 42 is not marked deleted). -/
theorem operator_refusal_no_change_witness :
    run_btree_modify_oper 8 c9oper [5] 7 3 1 0 (leafRootStore [([5], c9v, 0)]) =
      Except.ok { store := leafRootStore [([5], c9v, 0)], sb := ⟨false, 1⟩,
                  last := ⟨false, 0⟩, buf := ⟨false, 2⟩, depth := 1, casCtr := 3 } :=
  operator_refusal_no_change c9oper c9v 0 7 3 1 0 (by decide) rfl rfl

/-- C4: on the insert path the engine assigns a CAS from `slice.gen_cas()`
exactly when `new_value.has_cas && !oper.cas_already_set`: in that case the
stored value's CAS equals the freshly generated (most recent) CAS of the
slice, and in every other case the value — its CAS field included — is
stored untouched and the slice's CAS state does not advance. -/
theorem cas_lazily_assigned (oper : ModifyOper) (v : BtreeValue) (tstamp c0 : Nat)
    (d0 : Int) (fuel : Nat)
    (hsmall : v.lbRoot = none)
    (hop : oper.operate none = ⟨true, some v, false, 0, true⟩) :
    run_btree_modify_oper 8 oper [5] tstamp c0 d0 fuel (leafRootStore []) =
      Except.ok
        { store := ⟨[(2, Node.leaf 0
              [([5], (if v.has_cas && !oper.cas_already_set
                      then { v with cas := c0 + 1 } else v), tstamp)])],
              2, 3, [], []⟩,
          sb := ⟨false, 1⟩, last := ⟨false, 0⟩, buf := ⟨false, 2⟩, depth := d0,
          casCtr := if v.has_cas && !oper.cas_already_set then c0 + 1 else c0 } := by
  cases hc : (v.has_cas && !oper.cas_already_set) <;> cases fuel <;>
    simp [run_btree_modify_oper, get_root, descend, leafStage, applyUpdate,
      leafRootStore, Store.getNode, storeGet, leaf_lookup, leaf_lookup_go, sized_strcmp,
      BtreeValue.is_large, hsmall, hop, hc, gen_cas, check_and_handle_split,
      leaf_is_full, leaf_upsert, bind, Except.bind, pure, Except.pure,
      check_and_handle_underfull, Store.setNode, storeSet,
      Node.isInternal, NULL_BLOCK_ID, SUPERBLOCK_ID, BufLock.none']

/-- Witness for C4: inserting a `has_cas` value with `cas_already_set`
false stores it with CAS `11 = 10 + 1`, the most recently generated CAS. -/
theorem cas_lazily_assigned_witness :
    run_btree_modify_oper 8 c4oper [5] 7 10 1 0 (leafRootStore []) =
      Except.ok
        { store := ⟨[(2, Node.leaf 0
              [([5], (if c4v.has_cas && !c4oper.cas_already_set
                      then { c4v with cas := 10 + 1 } else c4v), 7)])],
              2, 3, [], []⟩,
          sb := ⟨false, 1⟩, last := ⟨false, 0⟩, buf := ⟨false, 2⟩, depth := 1,
          casCtr := if c4v.has_cas && !c4oper.cas_already_set then 10 + 1 else 10 } :=
  cas_lazily_assigned c4oper c4v 7 10 1 0 (by decide) rfl

/-- C1 counterexample: with the key's old value large (root block 50), its
handle loaded at lookup time, and the operator returning `update_needed`
with a new large value (root block 60) carried in `new_large_buflock` —
the operator having released the old handle, as the walk's assertion at
release time demands when a new large buf is present — the walk commits,
the new large value is reachable via the leaf, but the old large-value
root 50 is NOT marked deleted: `deletedLargeRoots` is empty. -/
theorem large_swap_counterexample :
    (run_btree_modify_oper 8 c1oper [5] 7 0 1 1 (leafRootStore [([5], c1vOld, 0)])).map
        (fun t => (t.store.deletedLargeRoots, leafEntriesAtRoot t)) =
      Except.ok ([], some [([5], c1vNew, 7)]) := by rfl

/-- C1 (amended): after a large-value replacement the walk marks the old
large-value root deleted exactly when the operator leaves the old handle
loaded, which the walk's assertion restricts to replacements whose new
value carries no large buf; in a large-to-large swap the operator must
have released the old handle itself, and then the walk commits with the
new large value reachable via the leaf's stored value but does not mark
the old root deleted. -/
theorem large_swap_old_root_deletion (oper : ModifyOper) (vold vnew : BtreeValue)
    (B B' : Nat) (ts0 tstamp c0 : Nat) (d0 : Int) (fuel : Nat)
    (hold : vold.lbRoot = some B) (hnexp : vold.expired = false)
    (hnc : vnew.has_cas = false) :
    ((oper.operate (some vold) = ⟨true, some vnew, true, B', false⟩) →
      vnew.lbRoot = some B' →
      run_btree_modify_oper 8 oper [5] tstamp c0 d0 fuel (leafRootStore [([5], vold, ts0)]) =
        Except.ok
          { store := ⟨[(2, Node.leaf 0 [([5], vnew, tstamp)])], 2, 3, [], []⟩,
            sb := ⟨false, 1⟩, last := ⟨false, 0⟩, buf := ⟨false, 2⟩, depth := d0,
            casCtr := c0 }) ∧
    ((oper.operate (some vold) = ⟨true, some vnew, false, 0, true⟩) →
      vnew.lbRoot = none →
      run_btree_modify_oper 8 oper [5] tstamp c0 d0 fuel (leafRootStore [([5], vold, ts0)]) =
        Except.ok
          { store := ⟨[(2, Node.leaf 0 [([5], vnew, tstamp)])], 2, 3, [], [B]⟩,
            sb := ⟨false, 1⟩, last := ⟨false, 0⟩, buf := ⟨false, 2⟩, depth := d0,
            casCtr := c0 }) := by
  constructor
  · intro hop hlarge
    cases fuel <;>
      simp [run_btree_modify_oper, get_root, descend, leafStage, applyUpdate,
        leafRootStore, Store.getNode, storeGet, leaf_lookup, leaf_lookup_go, sized_strcmp,
        BtreeValue.is_large, hold, hnexp, hnc, hop, hlarge, gen_cas, check_and_handle_split,
        leaf_is_full, leaf_upsert, bind, Except.bind, pure, Except.pure,
        check_and_handle_underfull, Store.setNode, storeSet, Store.markLargeDeleted,
        Node.isInternal, NULL_BLOCK_ID, SUPERBLOCK_ID, BufLock.none']
  · intro hop hsmall
    cases fuel <;>
      simp [run_btree_modify_oper, get_root, descend, leafStage, applyUpdate,
        leafRootStore, Store.getNode, storeGet, leaf_lookup, leaf_lookup_go, sized_strcmp,
        BtreeValue.is_large, hold, hnexp, hnc, hop, hsmall, gen_cas, check_and_handle_split,
        leaf_is_full, leaf_upsert, bind, Except.bind, pure, Except.pure,
        check_and_handle_underfull, Store.setNode, storeSet, Store.markLargeDeleted,
        Node.isInternal, NULL_BLOCK_ID, SUPERBLOCK_ID, BufLock.none']

/-- Witness for the amended C1: replacing the large value (root 50) with a
small value while the old handle stays loaded marks root 50 deleted. -/
theorem large_swap_old_root_deletion_witness :
    run_btree_modify_oper 8 c1operSmall [5] 7 0 1 1 (leafRootStore [([5], c1vOld, 0)]) =
      Except.ok
        { store := ⟨[(2, Node.leaf 0 [([5], c1vSmall, 7)])], 2, 3, [], [50]⟩,
          sb := ⟨false, 1⟩, last := ⟨false, 0⟩, buf := ⟨false, 2⟩, depth := 1,
          casCtr := 0 } :=
  (large_swap_old_root_deletion c1operSmall c1vOld c1vSmall 50 0 0 7 0 1 1
     (by decide) (by decide) (by decide)).2 rfl (by decide)

/-! ## Safety of the split/merge walk (claims C8 and C10) -/

theorem storeGet_set_ne (bl : List (Nat × Node)) (i j : Nat) (n : Node)
    (h : i ≠ j) : storeGet (storeSet bl i n) j = storeGet bl j := by
  induction bl with
  | nil => simp [storeSet, storeGet, h]
  | cons p rest ih =>
    obtain ⟨a, m⟩ := p
    by_cases ha : a = i
    · subst ha
      simp [storeSet, storeGet, h]
    · simp only [storeSet, if_neg ha]
      by_cases hb : a = j <;> simp [storeGet, hb, ih]

theorem storeGet_mem (bl : List (Nat × Node)) (i : Nat) (n : Node)
    (h : storeGet bl i = some n) : (i, n) ∈ bl := by
  induction bl with
  | nil => simp [storeGet] at h
  | cons p rest ih =>
    obtain ⟨a, m⟩ := p
    by_cases ha : a = i
    · subst ha
      simp [storeGet] at h
      simp [h]
    · simp [storeGet, ha] at h
      simp [ih h]

theorem mem_storeSet (bl : List (Nat × Node)) (i : Nat) (n : Node)
    (p : Nat × Node) (h : p ∈ storeSet bl i n) : p = (i, n) ∨ p ∈ bl := by
  induction bl with
  | nil => simp [storeSet] at h; simp [h]
  | cons q rest ih =>
    obtain ⟨a, m⟩ := q
    by_cases ha : a = i
    · subst ha
      simp [storeSet] at h
      rcases h with h | h
      · exact Or.inl h
      · exact Or.inr (List.mem_cons_of_mem _ h)
    · simp only [storeSet, if_neg ha, List.mem_cons] at h
      rcases h with h | h
      · exact Or.inr (by simp [h])
      · rcases ih h with h' | h'
        · exact Or.inl h'
        · exact Or.inr (List.mem_cons_of_mem _ h')

theorem storeGet_none_of_ge (st : Store) (hb : gBounded st) (i : Nat)
    (h : st.nextId ≤ i) : storeGet st.blocks i = none := by
  cases hg : storeGet st.blocks i with
  | none => rfl
  | some n =>
    have h2 : i < st.nextId := (hb.2.2 i n hg).2.1
    exact absurd h2 (by omega)

theorem storeGet_set_cases (bl : List (Nat × Node)) (j : Nat) (x : Node) (i : Nat)
    (n : Node) (h : storeGet (storeSet bl j x) i = some n) :
    (i = j ∧ n = x) ∨ (i ≠ j ∧ storeGet bl i = some n) := by
  by_cases he : i = j
  · subst he
    rw [storeGet_set_self] at h
    exact Or.inl ⟨rfl, (Option.some.inj h).symm⟩
  · right
    refine ⟨he, ?_⟩
    rwa [storeGet_set_ne _ _ _ _ (fun hh => he hh.symm)] at h

theorem gNodesOK_of_mem (bs : Nat) (st : Store) (h : storeNodesOK bs st) :
    gNodesOK bs st :=
  fun _ n hg => h (_, n) (storeGet_mem _ _ _ hg)

theorem gFilled_of_mem (bs : Nat) (st : Store) (h : storeNonRootFilled bs st) :
    gFilled bs st :=
  fun _ n hg hne => h (_, n) (storeGet_mem _ _ _ hg) hne

theorem gNoRootChild_of_mem (st : Store) (h : storeNoRootChild st) :
    gNoRootChild st :=
  fun _ m hg => h (_, Node.internal m) (storeGet_mem _ _ _ hg) m rfl

theorem gBounded_of_mem (st : Store) (h : storeBounded st) : gBounded st :=
  ⟨h.1, h.2.1, fun _ n hg => h.2.2 (_, n) (storeGet_mem _ _ _ hg)⟩



theorem internal_full_iff (bs : Nat) (n : InternalNode) :
    internal_is_full bs n = true ↔ bs ≤ n.childCount := by
  simp [internal_is_full]

theorem internal_full_false_iff (bs : Nat) (n : InternalNode) :
    internal_is_full bs n = false ↔ n.childCount < bs := by
  simp [internal_is_full]

theorem underfull_false_iff (bs : Nat) (nd : Node) :
    node_is_underfull bs nd = false ↔ bs ≤ 2 * nd.size + 1 := by
  simp only [node_is_underfull, decide_eq_false_iff_not]
  omega

theorem leaf_full_iff (bs : Nat) (es : List LeafEntry) (key : Key) (v : BtreeValue) :
    leaf_is_full bs es key v = true ↔ bs ≤ es.length := by
  simp [leaf_is_full]

theorem internal_full_lastChild (bs : Nat) (hbs : 6 ≤ bs) (n : InternalNode)
    (hok : nodeOK bs (.internal n)) (hfull : internal_is_full bs n = true) :
    ∃ lc, n.lastChild = some lc := by
  cases hl : n.lastChild with
  | some lc => exact ⟨lc, rfl⟩
  | none =>
    have hp := hok.2 hl
    rw [internal_full_iff] at hfull
    simp [InternalNode.childCount, hp, hl] at hfull
    exact absurd hfull (by omega)

theorem pairChildAt_mem (ps : List (Key × Nat)) (i : Nat) (h : i < ps.length) :
    pairChildAt ps i ∈ ps.map (·.2) := by
  simp only [pairChildAt, List.get?_eq_get h, Option.map_some', Option.getD_some]
  exact List.mem_map_of_mem _ (List.get_mem ps i h)

theorem internal_split_facts (bs : Nat) (hbs : 6 ≤ bs) (n : InternalNode) (lc : Nat)
    (hlc : n.lastChild = some lc) (hfull : internal_is_full bs n = true)
    (hcap : n.childCount ≤ bs) :
    ∃ nl nr med, node_split (.internal n) = (.internal nl, .internal nr, med) ∧
      nodeOK bs (.internal nl) ∧ nodeOK bs (.internal nr) ∧
      internal_is_full bs nl = false ∧ internal_is_full bs nr = false ∧
      node_is_underfull bs (.internal nl) = false ∧
      node_is_underfull bs (.internal nr) = false ∧
      (∀ c ∈ nl.childIds, c ∈ n.childIds) ∧ (∀ c ∈ nr.childIds, c ∈ n.childIds) := by
  rw [internal_full_iff] at hfull
  have hcount : n.childCount = n.pairs.length + 1 := by
    simp [InternalNode.childCount, hlc]
  have hL : n.pairs.length = bs - 1 := by omega
  have hm0 : (n.pairs.length + 1) / 2 ≠ 0 := by omega
  refine ⟨⟨n.pairs.take ((n.pairs.length + 1) / 2 - 1),
           some (pairChildAt n.pairs ((n.pairs.length + 1) / 2 - 1))⟩,
          ⟨n.pairs.drop ((n.pairs.length + 1) / 2), n.lastChild⟩,
          pairKeyAt n.pairs ((n.pairs.length + 1) / 2 - 1), ?_, ?_, ?_, ?_, ?_, ?_, ?_, ?_, ?_⟩
  · simp [node_split, hm0]
  · constructor
    · simp [InternalNode.childCount, List.length_take]
      omega
    · intro h
      simp at h
  · constructor
    · simp [InternalNode.childCount, List.length_drop, hlc]
      omega
    · intro h
      rw [hlc] at h
      simp at h
  · rw [internal_full_false_iff]
    simp [InternalNode.childCount, List.length_take]
    omega
  · rw [internal_full_false_iff]
    simp [InternalNode.childCount, List.length_drop, hlc]
    omega
  · rw [underfull_false_iff]
    simp [Node.size, InternalNode.childCount, List.length_take]
    omega
  · rw [underfull_false_iff]
    simp [Node.size, InternalNode.childCount, List.length_drop, hlc]
    omega
  · intro c hc
    simp only [InternalNode.childIds] at hc ⊢
    rcases List.mem_append.1 hc with h | h
    · rcases List.mem_map.1 h with ⟨p, hp, he⟩
      exact List.mem_append_left _ (List.mem_map.2 ⟨p, List.take_subset _ _ hp, he⟩)
    · simp at h
      subst h
      refine List.mem_append_left _ ?_
      exact pairChildAt_mem _ _ (by omega)
  · intro c hc
    simp only [InternalNode.childIds] at hc ⊢
    rcases List.mem_append.1 hc with h | h
    · rcases List.mem_map.1 h with ⟨p, hp, he⟩
      exact List.mem_append_left _ (List.mem_map.2 ⟨p, List.drop_subset _ _ hp, he⟩)
    · exact List.mem_append_right _ h



theorem internal_insert_go_facts (med : Key) (l r : Nat) (ps ps' : List (Key × Nat))
    (h : internal_insert_go med l r ps = some ps') :
    ps'.length = ps.length + 1 ∧
    ∀ c ∈ ps'.map (·.2), c = l ∨ c = r ∨ c ∈ ps.map (·.2) := by
  induction ps generalizing ps' with
  | nil => simp [internal_insert_go] at h
  | cons p rest ih =>
    obtain ⟨k, c0⟩ := p
    by_cases hc : c0 = l
    · simp [internal_insert_go, hc] at h
      subst h
      refine ⟨by simp, ?_⟩
      intro c hc'
      simp at hc'
      rcases hc' with h | h | h
      · exact Or.inl h
      · exact Or.inr (Or.inl h)
      · exact Or.inr (Or.inr (by simp [h]))
    · simp [internal_insert_go, hc] at h
      obtain ⟨ps1, h1, h2⟩ := h
      obtain ⟨hl1, hm1⟩ := ih ps1 h1
      subst h2
      refine ⟨by simp [hl1], ?_⟩
      intro c hc'
      simp at hc'
      rcases hc' with h | h
      · exact Or.inr (Or.inr (by simp [h]))
      · rcases hm1 c (by simpa using h) with h' | h' | h'
        · exact Or.inl h'
        · exact Or.inr (Or.inl h')
        · simp at h'
          exact Or.inr (Or.inr (by simp [h']))

theorem internal_insert_facts (bs : Nat) (hbs : 6 ≤ bs) (n : InternalNode)
    (med : Key) (l r : Nat)
    (hnf : internal_is_full bs n = false) (hwf : n.lastChild = none → n.pairs = []) :
    ∃ n', internal_insert bs n med l r = some n' ∧
      nodeOK bs (.internal n') ∧ n.childCount ≤ n'.childCount ∧
      (∀ c ∈ n'.childIds, c = l ∨ c = r ∨ c ∈ n.childIds) := by
  rw [internal_full_false_iff] at hnf
  simp only [internal_insert, internal_full_false_iff]
  rw [if_neg (by rw [internal_full_iff]; omega)]
  cases hgo : internal_insert_go med l r n.pairs with
  | some ps' =>
    obtain ⟨hlen, hmem⟩ := internal_insert_go_facts med l r n.pairs ps' hgo
    refine ⟨⟨ps', n.lastChild⟩, rfl, ⟨?_, ?_⟩, ?_, ?_⟩
    · simp only [InternalNode.childCount] at hnf ⊢
      omega
    · intro h
      dsimp only at h
      have hp := hwf h
      rw [hp] at hgo
      simp [internal_insert_go] at hgo
    · simp only [InternalNode.childCount]
      omega
    · intro c hc
      simp only [InternalNode.childIds] at hc ⊢
      rcases List.mem_append.1 hc with h | h
      · rcases hmem c h with h' | h' | h'
        · exact Or.inl h'
        · exact Or.inr (Or.inl h')
        · exact Or.inr (Or.inr (List.mem_append_left _ h'))
      · exact Or.inr (Or.inr (List.mem_append_right _ h))
  | none =>
    cases hl : n.lastChild with
    | some lc =>
      by_cases he : lc = l
      · refine ⟨⟨n.pairs ++ [(med, l)], some r⟩, by simp [he], ⟨?_, by simp⟩, ?_, ?_⟩
        · simp only [InternalNode.childCount, List.length_append, List.length_cons,
            List.length_nil, hl, Option.isSome_some, if_true] at hnf ⊢
          omega
        · simp only [InternalNode.childCount, List.length_append, List.length_cons,
            List.length_nil, hl, Option.isSome_some, if_true]
          omega
        · intro c hc
          simp only [InternalNode.childIds, hl] at hc ⊢
          simp at hc
          rcases hc with h | h | h
          · exact Or.inr (Or.inr (by simp [h]))
          · exact Or.inl h
          · exact Or.inr (Or.inl h)
      · refine ⟨⟨n.pairs ++ [(med, l)], some lc⟩, by simp [he], ⟨?_, by simp⟩, ?_, ?_⟩
        · simp only [InternalNode.childCount, List.length_append, List.length_cons,
            List.length_nil, hl, Option.isSome_some, if_true] at hnf ⊢
          omega
        · simp only [InternalNode.childCount, List.length_append, List.length_cons,
            List.length_nil, hl, Option.isSome_some, if_true]
          omega
        · intro c hc
          simp only [InternalNode.childIds, hl] at hc ⊢
          simp at hc
          rcases hc with h | h | h
          · exact Or.inr (Or.inr (by simp [h]))
          · exact Or.inl h
          · exact Or.inr (Or.inr (by simp [h]))
    | none =>
      refine ⟨⟨n.pairs ++ [(med, l)], some r⟩, rfl, ⟨?_, by simp⟩, ?_, ?_⟩
      · have hp := hwf hl
        simp only [InternalNode.childCount, List.length_append, List.length_cons,
          List.length_nil, hp, Option.isSome_some, if_true]
        omega
      · simp only [InternalNode.childCount, List.length_append, List.length_cons,
          List.length_nil, hl, Option.isSome_some, if_true, Option.isSome_none,
          Bool.false_eq_true, if_false]
        omega
      · intro c hc
        simp only [InternalNode.childIds, hl] at hc ⊢
        simp at hc
        rcases hc with h | h | h
        · exact Or.inr (Or.inr (by simp [h]))
        · exact Or.inl h
        · exact Or.inr (Or.inl h)

theorem internal_lookup_go_mem (key : Key) (ps : List (Key × Nat)) (c : Nat)
    (h : internal_lookup_go key ps = some c) : c ∈ ps.map (·.2) := by
  induction ps with
  | nil => simp [internal_lookup_go] at h
  | cons p rest ih =>
    obtain ⟨k, c0⟩ := p
    by_cases hcmp : sized_strcmp key k ≤ 0
    · simp [internal_lookup_go, hcmp] at h
      simp [h]
    · simp [internal_lookup_go, hcmp] at h
      simp [ih h]

theorem internal_lookup_mem (n : InternalNode) (key : Key) :
    internal_lookup n key = NULL_BLOCK_ID ∨ internal_lookup n key ∈ n.childIds := by
  simp only [internal_lookup]
  cases hgo : internal_lookup_go key n.pairs with
  | some c =>
    right
    exact List.mem_append_left _ (internal_lookup_go_mem key n.pairs c hgo)
  | none =>
    cases hl : n.lastChild with
    | none => left; rfl
    | some lc =>
      right
      simp [InternalNode.childIds, hl]

theorem leaf_split_facts (bs : Nat) (hbs : 6 ≤ bs) (ts : Nat) (es : List LeafEntry)
    (key : Key) (v : BtreeValue)
    (hfull : leaf_is_full bs es key v = true) (hcap : es.length ≤ bs) :
    ∃ esl esr med, node_split (.leaf ts es) = (.leaf ts esl, .leaf ts esr, med) ∧
      esl.length ≤ bs ∧ esr.length ≤ bs ∧
      node_is_underfull bs (.leaf ts esl) = false ∧
      node_is_underfull bs (.leaf ts esr) = false := by
  rw [leaf_full_iff] at hfull
  refine ⟨es.take ((es.length + 1) / 2), es.drop ((es.length + 1) / 2),
          leafKeyAt es ((es.length + 1) / 2 - 1), rfl, ?_, ?_, ?_, ?_⟩
  · rw [List.length_take]; omega
  · rw [List.length_drop]; omega
  · rw [underfull_false_iff]
    simp only [Node.size, List.length_take]
    omega
  · rw [underfull_false_iff]
    simp only [Node.size, List.length_drop]
    omega

theorem leaf_upsert_length (key : Key) (v : BtreeValue) (ts : Nat)
    (es : List LeafEntry) :
    es.length ≤ (leaf_upsert key v ts es).length ∧
    (leaf_upsert key v ts es).length ≤ es.length + 1 := by
  induction es with
  | nil => simp [leaf_upsert]
  | cons e rest ih =>
    obtain ⟨k, w, t⟩ := e
    by_cases h0 : sized_strcmp key k = 0
    · simp [leaf_upsert, h0]
    · by_cases h1 : sized_strcmp key k < 0
      · simp [leaf_upsert, h0, h1]
      · simp only [leaf_upsert, if_neg h0, if_neg h1, List.length_cons]
        omega

theorem leaf_remove_length (key : Key) (es : List LeafEntry) :
    (leaf_remove key es).length ≤ es.length := by
  induction es with
  | nil => simp [leaf_remove]
  | cons e rest ih =>
    obtain ⟨k, w, t⟩ := e
    by_cases h0 : sized_strcmp key k = 0
    · rw [leaf_remove, if_pos h0]
      simp only [List.length_cons]
      omega
    · simp only [leaf_remove, if_neg h0, List.length_cons]
      omega



theorem split_noop_internal (bs : Nat) (key : Key) (s : WalkState) (inode : InternalNode)
    (hbuf : s.store.getNode s.buf.id = some (Node.internal inode))
    (hfull : internal_is_full bs inode = false) :
    check_and_handle_split bs key none s = Except.ok s := by
  simp [check_and_handle_split, hbuf, hfull, bind, Except.bind, pure, Except.pure]

theorem split_noop_leaf (bs : Nat) (key : Key) (v : BtreeValue) (s : WalkState)
    (ts : Nat) (es : List LeafEntry)
    (hbuf : s.store.getNode s.buf.id = some (Node.leaf ts es))
    (hfull : leaf_is_full bs es key v = false) :
    check_and_handle_split bs key (some v) s = Except.ok s := by
  simp [check_and_handle_split, hbuf, hfull, bind, Except.bind, pure, Except.pure]

theorem split_eval_parent (bs : Nat) (key : Key) (nv : Option BtreeValue) (s : WalkState)
    (node : Node) (nl nr : Node) (med : Key) (parent parent' : InternalNode)
    (hbuf : s.store.getNode s.buf.id = some node)
    (hfull : (match node, nv with
              | Node.leaf _ es, some v => leaf_is_full bs es key v
              | Node.internal n, none => internal_is_full bs n
              | _, _ => false) = true)
    (hkind : (match node, nv with
              | Node.leaf _ _, some _ => True
              | Node.internal _, none => True
              | _, _ => False))
    (hsp : node_split node = (nl, nr, med))
    (hlast : s.last.acq = true)
    (hp : storeGet (storeSet (storeSet s.store.blocks s.buf.id nl) s.store.nextId nr)
            s.last.id = some (Node.internal parent))
    (hins : internal_insert bs parent med s.buf.id s.store.nextId = some parent') :
    check_and_handle_split bs key nv s = Except.ok
      { s with
        store := { blocks := storeSet (storeSet (storeSet s.store.blocks s.buf.id nl)
                     s.store.nextId nr) s.last.id (Node.internal parent'),
                   superRoot := s.store.superRoot, nextId := s.store.nextId + 1,
                   deletedBlocks := s.store.deletedBlocks,
                   deletedLargeRoots := s.store.deletedLargeRoots },
        buf := if 0 ≥ sized_strcmp key med then s.buf else ⟨true, s.store.nextId⟩ } := by
  have hbuf' : storeGet s.store.blocks s.buf.id = some node := hbuf
  cases node with
  | leaf ts es =>
    cases nv with
    | none => simp at hkind
    | some v =>
      simp only at hfull
      simp [check_and_handle_split, hbuf', hfull, hsp, hlast, hp, hins,
        bind, Except.bind, pure, Except.pure, Store.allocate, Store.setNode, Store.getNode]
  | internal inode =>
    cases nv with
    | some v => simp at hkind
    | none =>
      simp only at hfull
      simp [check_and_handle_split, hbuf', hfull, hsp, hlast, hp, hins,
        bind, Except.bind, pure, Except.pure, Store.allocate, Store.setNode, Store.getNode]

theorem split_eval_root (bs : Nat) (key : Key) (nv : Option BtreeValue) (s : WalkState)
    (node : Node) (nl nr : Node) (med : Key) (parent' : InternalNode)
    (hbuf : s.store.getNode s.buf.id = some node)
    (hfull : (match node, nv with
              | Node.leaf _ es, some v => leaf_is_full bs es key v
              | Node.internal n, none => internal_is_full bs n
              | _, _ => false) = true)
    (hkind : (match node, nv with
              | Node.leaf _ _, some _ => True
              | Node.internal _, none => True
              | _, _ => False))
    (hsp : node_split node = (nl, nr, med))
    (hlast : s.last.acq = false)
    (hsb : s.sb.acq = true)
    (hins : internal_insert bs (⟨[], none⟩ : InternalNode) med s.buf.id s.store.nextId =
      some parent') :
    check_and_handle_split bs key nv s = Except.ok
      { store := { blocks := storeSet (storeSet (storeSet (storeSet s.store.blocks
                     s.buf.id nl) s.store.nextId nr) (s.store.nextId + 1)
                     (Node.internal (⟨[], none⟩ : InternalNode))) (s.store.nextId + 1)
                     (Node.internal parent'),
                   superRoot := s.store.nextId + 1, nextId := s.store.nextId + 1 + 1,
                   deletedBlocks := s.store.deletedBlocks,
                   deletedLargeRoots := s.store.deletedLargeRoots },
        sb := ⟨false, s.sb.id⟩, last := ⟨true, s.store.nextId + 1⟩,
        buf := if 0 ≥ sized_strcmp key med then s.buf else ⟨true, s.store.nextId⟩,
        depth := s.depth + 1, casCtr := s.casCtr } := by
  have hget : storeGet (storeSet (storeSet (storeSet s.store.blocks s.buf.id nl)
      s.store.nextId nr) (s.store.nextId + 1) (Node.internal (⟨[], none⟩ : InternalNode)))
      (s.store.nextId + 1) = some (Node.internal (⟨[], none⟩ : InternalNode)) :=
    storeGet_set_self _ _ _
  have hbuf' : storeGet s.store.blocks s.buf.id = some node := hbuf
  cases node with
  | leaf ts es =>
    cases nv with
    | none => simp at hkind
    | some v =>
      simp only at hfull
      simp [check_and_handle_split, hbuf', hfull, hsp, hlast, hsb, hins, hget, insert_root,
        bind, Except.bind, pure, Except.pure, Store.allocate, Store.setNode, Store.getNode]
  | internal inode =>
    cases nv with
    | some v => simp at hkind
    | none =>
      simp only at hfull
      simp [check_and_handle_split, hbuf', hfull, hsp, hlast, hsb, hins, hget, insert_root,
        bind, Except.bind, pure, Except.pure, Store.allocate, Store.setNode, Store.getNode]

theorem internal_insert_empty (bs : Nat) (hbs : 6 ≤ bs) (med : Key) (l r : Nat) :
    internal_insert bs (⟨[], none⟩ : InternalNode) med l r =
      some ⟨[(med, l)], some r⟩ := by
  rw [internal_insert, if_neg]
  · simp [internal_insert_go]
  · rw [internal_full_iff]
    simp [InternalNode.childCount]
    omega



theorem split_eval_parent_missing (bs : Nat) (key : Key) (nv : Option BtreeValue)
    (s : WalkState) (node : Node) (nl nr : Node) (med : Key)
    (hbuf : s.store.getNode s.buf.id = some node)
    (hfull : (match node, nv with
              | Node.leaf _ es, some v => leaf_is_full bs es key v
              | Node.internal n, none => internal_is_full bs n
              | _, _ => false) = true)
    (hkind : (match node, nv with
              | Node.leaf _ _, some _ => True
              | Node.internal _, none => True
              | _, _ => False))
    (hsp : node_split node = (nl, nr, med))
    (hlast : s.last.acq = true)
    (hp : storeGet (storeSet (storeSet s.store.blocks s.buf.id nl) s.store.nextId nr)
            s.last.id = none) :
    check_and_handle_split bs key nv s = Except.error RErr.missingBlock := by
  have hbuf' : storeGet s.store.blocks s.buf.id = some node := hbuf
  cases node with
  | leaf ts es =>
    cases nv with
    | none => simp at hkind
    | some v =>
      simp only at hfull
      simp [check_and_handle_split, hbuf', hfull, hsp, hlast, hp, throw, throwThe,
        MonadExceptOf.throw,
        bind, Except.bind, pure, Except.pure, Store.allocate, Store.setNode, Store.getNode]
  | internal inode =>
    cases nv with
    | some v => simp at hkind
    | none =>
      simp only at hfull
      simp [check_and_handle_split, hbuf', hfull, hsp, hlast, hp, throw, throwThe,
        MonadExceptOf.throw,
        bind, Except.bind, pure, Except.pure, Store.allocate, Store.setNode, Store.getNode]

theorem split_eval_parent_cast (bs : Nat) (key : Key) (nv : Option BtreeValue)
    (s : WalkState) (node : Node) (nl nr : Node) (med : Key) (pts : Nat)
    (pes : List LeafEntry)
    (hbuf : s.store.getNode s.buf.id = some node)
    (hfull : (match node, nv with
              | Node.leaf _ es, some v => leaf_is_full bs es key v
              | Node.internal n, none => internal_is_full bs n
              | _, _ => false) = true)
    (hkind : (match node, nv with
              | Node.leaf _ _, some _ => True
              | Node.internal _, none => True
              | _, _ => False))
    (hsp : node_split node = (nl, nr, med))
    (hlast : s.last.acq = true)
    (hp : storeGet (storeSet (storeSet s.store.blocks s.buf.id nl) s.store.nextId nr)
            s.last.id = some (Node.leaf pts pes)) :
    check_and_handle_split bs key nv s = Except.error RErr.castFail := by
  have hbuf' : storeGet s.store.blocks s.buf.id = some node := hbuf
  cases node with
  | leaf ts es =>
    cases nv with
    | none => simp at hkind
    | some v =>
      simp only at hfull
      simp [check_and_handle_split, hbuf', hfull, hsp, hlast, hp, throw, throwThe,
        MonadExceptOf.throw,
        bind, Except.bind, pure, Except.pure, Store.allocate, Store.setNode, Store.getNode]
  | internal inode =>
    cases nv with
    | some v => simp at hkind
    | none =>
      simp only at hfull
      simp [check_and_handle_split, hbuf', hfull, hsp, hlast, hp, throw, throwThe,
        MonadExceptOf.throw,
        bind, Except.bind, pure, Except.pure, Store.allocate, Store.setNode, Store.getNode]



theorem split_descend_safe (bs : Nat) (key : Key) (hbs : 6 ≤ bs) (s : WalkState)
    (inode : InternalNode) (inv : WalkInv bs s)
    (hbuf : s.store.getNode s.buf.id = some (Node.internal inode)) :
    (∀ t, check_and_handle_split bs key none s = Except.ok t → MidInv bs t) ∧
    (∀ e, check_and_handle_split bs key none s = Except.error e →
      e ≠ RErr.insertRootNoSb ∧ e ≠ RErr.internalInsertFailed) := by
  have hnodeok : nodeOK bs (Node.internal inode) := inv.nodesOK _ _ hbuf
  by_cases hfull : internal_is_full bs inode = true
  case neg =>
    have hfull' : internal_is_full bs inode = false := by
      revert hfull; cases internal_is_full bs inode <;> simp
    have heval := split_noop_internal bs key s inode hbuf hfull'
    have hnu : s.last.acq = true → node_is_underfull bs (Node.internal inode) = false := by
      intro hl
      by_cases hr : s.buf.id = s.store.superRoot
      · rw [(inv.atRoot hr).2] at hl
        exact Bool.noConfusion hl
      · exact inv.filled _ _ hbuf hr
    constructor
    · intro t ht
      rw [heval] at ht
      rw [Except.ok.injEq] at ht
      subst ht
      exact { nodesOK := inv.nodesOK, filled := inv.filled, rootChild := inv.rootChild,
              bounded := inv.bounded, bufAcq := inv.bufAcq, held := inv.held,
              noLast := inv.noLast, atRoot := inv.atRoot, bufLt := inv.bufLt,
              lastLt := inv.lastLt, bufNode := ⟨inode, hbuf, hfull', hnu⟩ }
    · intro e he
      rw [heval] at he
      exact Except.noConfusion he
  case pos =>
    obtain ⟨lc, hlc⟩ := internal_full_lastChild bs hbs inode hnodeok hfull
    obtain ⟨nl, nr, med, hsp, hokl, hokr, hfl, hfr, hul, hur, hsubl, hsubr⟩ :=
      internal_split_facts bs hbs inode lc hlc hfull hnodeok.1
    by_cases hlast : s.last.acq = true
    case pos =>
      have hne1 : s.last.id ≠ s.buf.id := by
        intro he
        have hpnf := inv.parentNotFull hlast inode (by rw [he]; exact hbuf)
        rw [hpnf] at hfull
        exact Bool.noConfusion hfull
      have hlt := inv.lastLt hlast
      have hpread : storeGet (storeSet (storeSet s.store.blocks s.buf.id (Node.internal nl))
          s.store.nextId (Node.internal nr)) s.last.id = storeGet s.store.blocks s.last.id := by
        rw [storeGet_set_ne _ _ _ _ (by omega),
            storeGet_set_ne _ _ _ _ (fun h => hne1 h.symm)]
      cases hpn : storeGet s.store.blocks s.last.id with
      | none =>
        have heval := split_eval_parent_missing bs key none s (Node.internal inode)
          (Node.internal nl) (Node.internal nr) med hbuf hfull trivial hsp hlast
          (by rw [hpread]; exact hpn)
        constructor
        · intro t ht
          rw [heval] at ht
          exact Except.noConfusion ht
        · intro e he
          rw [heval] at he
          rw [Except.error.injEq] at he
          subst he
          exact ⟨by decide, by decide⟩
      | some pnode =>
        cases pnode with
        | leaf pts pes =>
          have heval := split_eval_parent_cast bs key none s (Node.internal inode)
            (Node.internal nl) (Node.internal nr) med pts pes hbuf hfull trivial hsp hlast
            (by rw [hpread]; exact hpn)
          constructor
          · intro t ht
            rw [heval] at ht
            exact Except.noConfusion ht
          · intro e he
            rw [heval] at he
            rw [Except.error.injEq] at he
            subst he
            exact ⟨by decide, by decide⟩
        | internal parent =>
          have hpnf := inv.parentNotFull hlast parent hpn
          have hparok : nodeOK bs (Node.internal parent) := inv.nodesOK _ _ hpn
          obtain ⟨parent', hins, hokp', hmono, hsubp⟩ :=
            internal_insert_facts bs hbs parent med s.buf.id s.store.nextId hpnf hparok.2
          have heval := split_eval_parent bs key none s (Node.internal inode)
            (Node.internal nl) (Node.internal nr) med parent parent' hbuf hfull trivial hsp
            hlast (by rw [hpread]; exact hpn) hins
          constructor
          · intro t ht
            rw [heval] at ht
            rw [Except.ok.injEq] at ht
            subst ht
            refine { nodesOK := ?_, filled := ?_, rootChild := ?_, bounded := ?_,
                     bufAcq := ?_, held := ?_, noLast := ?_, atRoot := ?_, bufLt := ?_,
                     lastLt := ?_, bufNode := ?_ }
            · intro i n hg
              dsimp only at hg
              rcases storeGet_set_cases _ _ _ _ _ hg with ⟨hi, rfl⟩ | ⟨hi, hg1⟩
              · exact hokp'
              · rcases storeGet_set_cases _ _ _ _ _ hg1 with ⟨hi2, rfl⟩ | ⟨hi2, hg2⟩
                · exact hokr
                · rcases storeGet_set_cases _ _ _ _ _ hg2 with ⟨hi3, rfl⟩ | ⟨hi3, hg3⟩
                  · exact hokl
                  · exact inv.nodesOK _ _ hg3
            · intro i n hg hne
              dsimp only at hg hne
              rcases storeGet_set_cases _ _ _ _ _ hg with ⟨hi, rfl⟩ | ⟨hi, hg1⟩
              · have hpu : node_is_underfull bs (Node.internal parent) = false :=
                  inv.filled _ _ hpn (fun h => hne (hi.trans h))
                rw [underfull_false_iff] at hpu ⊢
                simp only [Node.size] at hpu ⊢
                omega
              · rcases storeGet_set_cases _ _ _ _ _ hg1 with ⟨hi2, rfl⟩ | ⟨hi2, hg2⟩
                · exact hur
                · rcases storeGet_set_cases _ _ _ _ _ hg2 with ⟨hi3, rfl⟩ | ⟨hi3, hg3⟩
                  · exact hul
                  · exact inv.filled _ _ hg3 hne
            · intro i m hg
              dsimp only at hg ⊢
              rcases storeGet_set_cases _ _ _ _ _ hg with ⟨hi, hn⟩ | ⟨hi, hg1⟩
              · obtain rfl := Node.internal.inj hn
                intro hmem
                rcases hsubp _ hmem with h | h | h
                · rw [(inv.atRoot h.symm).2] at hlast
                  exact Bool.noConfusion hlast
                · have := inv.bounded.1
                  omega
                · exact inv.rootChild _ _ hpn h
              · rcases storeGet_set_cases _ _ _ _ _ hg1 with ⟨hi2, hn⟩ | ⟨hi2, hg2⟩
                · obtain rfl := Node.internal.inj hn
                  intro hmem
                  exact inv.rootChild _ _ hbuf (hsubr _ hmem)
                · rcases storeGet_set_cases _ _ _ _ _ hg2 with ⟨hi3, hn⟩ | ⟨hi3, hg3⟩
                  · obtain rfl := Node.internal.inj hn
                    intro hmem
                    exact inv.rootChild _ _ hbuf (hsubl _ hmem)
                  · exact inv.rootChild _ _ hg3
            · refine ⟨?_, ?_, ?_⟩
              · show s.store.superRoot < s.store.nextId + 1
                have := inv.bounded.1
                omega
              · show SUPERBLOCK_ID < s.store.nextId + 1
                have := inv.bounded.2.1
                omega
              · intro i n hg
                dsimp only at hg ⊢
                rcases storeGet_set_cases _ _ _ _ _ hg with ⟨hi, rfl⟩ | ⟨hi, hg1⟩
                · subst hi
                  have hb := inv.bounded.2.2 _ _ hpn
                  refine ⟨hb.1, by omega, ?_⟩
                  intro m hm c hc
                  obtain rfl := Node.internal.inj hm
                  rcases hsubp c hc with h | h | h
                  · have := inv.bufLt
                    omega
                  · omega
                  · have := hb.2.2 parent rfl c h
                    omega
                · rcases storeGet_set_cases _ _ _ _ _ hg1 with ⟨hi2, rfl⟩ | ⟨hi2, hg2⟩
                  · subst hi2
                    refine ⟨inv.bounded.2.1, by omega, ?_⟩
                    intro m hm c hc
                    obtain rfl := Node.internal.inj hm
                    have := (inv.bounded.2.2 _ _ hbuf).2.2 inode rfl c (hsubr c hc)
                    omega
                  · rcases storeGet_set_cases _ _ _ _ _ hg2 with ⟨hi3, rfl⟩ | ⟨hi3, hg3⟩
                    · subst hi3
                      have hb := inv.bounded.2.2 _ _ hbuf
                      refine ⟨hb.1, by have := inv.bufLt; omega, ?_⟩
                      intro m hm c hc
                      obtain rfl := Node.internal.inj hm
                      have := hb.2.2 inode rfl c (hsubl c hc)
                      omega
                    · have hb := inv.bounded.2.2 _ _ hg3
                      refine ⟨hb.1, by have := hb.2.1; omega, ?_⟩
                      intro m hm c hc
                      have := hb.2.2 m hm c hc
                      omega
            · show (if 0 ≥ sized_strcmp key med then s.buf
                    else (⟨true, s.store.nextId⟩ : BufLock)).acq = true
              split
              · exact inv.bufAcq
              · rfl
            · exact Or.inr hlast
            · intro h
              exact Bool.noConfusion (h.symm.trans hlast)
            · intro he
              exfalso
              revert he
              show (if 0 ≥ sized_strcmp key med then s.buf
                    else (⟨true, s.store.nextId⟩ : BufLock)).id = s.store.superRoot → False
              split
              · intro he
                rw [(inv.atRoot he).2] at hlast
                exact Bool.noConfusion hlast
              · intro he
                have h1 : s.store.nextId = s.store.superRoot := he
                have := inv.bounded.1
                omega
            · show (if 0 ≥ sized_strcmp key med then s.buf
                    else (⟨true, s.store.nextId⟩ : BufLock)).id < s.store.nextId + 1
              split
              · have := inv.bufLt
                omega
              · show s.store.nextId < s.store.nextId + 1
                omega
            · intro h
              show s.last.id < s.store.nextId + 1
              omega
            · by_cases hc : 0 ≥ sized_strcmp key med
              · refine ⟨nl, ?_, hfl, fun _ => hul⟩
                show storeGet (storeSet (storeSet (storeSet s.store.blocks s.buf.id
                    (Node.internal nl)) s.store.nextId (Node.internal nr)) s.last.id
                    (Node.internal parent'))
                    ((if 0 ≥ sized_strcmp key med then s.buf
                      else (⟨true, s.store.nextId⟩ : BufLock)).id) = some (Node.internal nl)
                rw [if_pos hc]
                rw [storeGet_set_ne _ _ _ _ hne1,
                    storeGet_set_ne _ _ _ _ (by have := inv.bufLt; omega),
                    storeGet_set_self]
              · refine ⟨nr, ?_, hfr, fun _ => hur⟩
                show storeGet (storeSet (storeSet (storeSet s.store.blocks s.buf.id
                    (Node.internal nl)) s.store.nextId (Node.internal nr)) s.last.id
                    (Node.internal parent'))
                    ((if 0 ≥ sized_strcmp key med then s.buf
                      else (⟨true, s.store.nextId⟩ : BufLock)).id) = some (Node.internal nr)
                rw [if_neg hc]
                show storeGet (storeSet (storeSet (storeSet s.store.blocks s.buf.id
                    (Node.internal nl)) s.store.nextId (Node.internal nr)) s.last.id
                    (Node.internal parent')) s.store.nextId = some (Node.internal nr)
                rw [storeGet_set_ne _ _ _ _ (by omega), storeGet_set_self]
          · intro e he
            rw [heval] at he
            exact Except.noConfusion he
    case neg =>
      have hlast' : s.last.acq = false := by
        revert hlast; cases s.last.acq <;> simp
      have hsb : s.sb.acq = true := by
        rcases inv.held with h | h
        · exact h
        · rw [hlast'] at h
          exact Bool.noConfusion h
      have hroot : s.buf.id = s.store.superRoot := inv.noLast hlast'
      have hins := internal_insert_empty bs hbs med s.buf.id s.store.nextId
      have heval := split_eval_root bs key none s (Node.internal inode) (Node.internal nl)
        (Node.internal nr) med ⟨[(med, s.buf.id)], some s.store.nextId⟩ hbuf hfull trivial
        hsp hlast' hsb hins
      constructor
      · intro t ht
        rw [heval] at ht
        rw [Except.ok.injEq] at ht
        subst ht
        refine { nodesOK := ?_, filled := ?_, rootChild := ?_, bounded := ?_,
                 bufAcq := ?_, held := ?_, noLast := ?_, atRoot := ?_, bufLt := ?_,
                 lastLt := ?_, bufNode := ?_ }
        · intro i n hg
          dsimp only at hg
          rcases storeGet_set_cases _ _ _ _ _ hg with ⟨hi, rfl⟩ | ⟨hi, hg1⟩
          · constructor
            · show InternalNode.childCount ⟨[(med, s.buf.id)], some s.store.nextId⟩ ≤ bs
              simp [InternalNode.childCount]
              omega
            · intro h
              exact Option.noConfusion h
          · rcases storeGet_set_cases _ _ _ _ _ hg1 with ⟨hi2, rfl⟩ | ⟨hi2, hg2⟩
            · exact absurd hi2 hi
            · rcases storeGet_set_cases _ _ _ _ _ hg2 with ⟨hi3, rfl⟩ | ⟨hi3, hg3⟩
              · exact hokr
              · rcases storeGet_set_cases _ _ _ _ _ hg3 with ⟨hi4, rfl⟩ | ⟨hi4, hg4⟩
                · exact hokl
                · exact inv.nodesOK _ _ hg4
        · intro i n hg hne
          dsimp only at hg hne
          rcases storeGet_set_cases _ _ _ _ _ hg with ⟨hi, rfl⟩ | ⟨hi, hg1⟩
          · exact absurd hi hne
          · rcases storeGet_set_cases _ _ _ _ _ hg1 with ⟨hi2, rfl⟩ | ⟨hi2, hg2⟩
            · exact absurd hi2 hi
            · rcases storeGet_set_cases _ _ _ _ _ hg2 with ⟨hi3, rfl⟩ | ⟨hi3, hg3⟩
              · exact hur
              · rcases storeGet_set_cases _ _ _ _ _ hg3 with ⟨hi4, rfl⟩ | ⟨hi4, hg4⟩
                · exact hul
                · exact inv.filled _ _ hg4 (fun h => hi4 (h.trans hroot.symm))
        · intro i m hg
          dsimp only at hg ⊢
          rcases storeGet_set_cases _ _ _ _ _ hg with ⟨hi, hn⟩ | ⟨hi, hg1⟩
          · obtain rfl := Node.internal.inj hn
            intro hmem
            have hblt := inv.bufLt
            have h2 : s.store.nextId + 1 = s.buf.id ∨ s.store.nextId + 1 = s.store.nextId := by
              simpa [InternalNode.childIds] using hmem
            rcases h2 with h | h <;> omega
          · rcases storeGet_set_cases _ _ _ _ _ hg1 with ⟨hi2, hn⟩ | ⟨hi2, hg2⟩
            · exact absurd hi2 hi
            · rcases storeGet_set_cases _ _ _ _ _ hg2 with ⟨hi3, hn⟩ | ⟨hi3, hg3⟩
              · obtain rfl := Node.internal.inj hn
                intro hmem
                have := (inv.bounded.2.2 _ _ hbuf).2.2 inode rfl _ (hsubr _ hmem)
                omega
              · rcases storeGet_set_cases _ _ _ _ _ hg3 with ⟨hi4, hn⟩ | ⟨hi4, hg4⟩
                · obtain rfl := Node.internal.inj hn
                  intro hmem
                  have := (inv.bounded.2.2 _ _ hbuf).2.2 inode rfl _ (hsubl _ hmem)
                  omega
                · intro hmem
                  have := (inv.bounded.2.2 _ _ hg4).2.2 m rfl _ hmem
                  omega
        · refine ⟨?_, ?_, ?_⟩
          · show s.store.nextId + 1 < s.store.nextId + 1 + 1
            omega
          · show SUPERBLOCK_ID < s.store.nextId + 1 + 1
            have := inv.bounded.2.1
            omega
          · intro i n hg
            dsimp only at hg ⊢
            rcases storeGet_set_cases _ _ _ _ _ hg with ⟨hi, rfl⟩ | ⟨hi, hg1⟩
            · subst hi
              refine ⟨by have := inv.bounded.2.1; omega, by omega, ?_⟩
              intro m hm c hc
              obtain rfl := Node.internal.inj hm
              simp [InternalNode.childIds] at hc
              rcases hc with h | h
              · have := inv.bufLt
                omega
              · omega
            · rcases storeGet_set_cases _ _ _ _ _ hg1 with ⟨hi2, rfl⟩ | ⟨hi2, hg2⟩
              · exact absurd hi2 hi
              · rcases storeGet_set_cases _ _ _ _ _ hg2 with ⟨hi3, rfl⟩ | ⟨hi3, hg3⟩
                · subst hi3
                  refine ⟨inv.bounded.2.1, by omega, ?_⟩
                  intro m hm c hc
                  obtain rfl := Node.internal.inj hm
                  have := (inv.bounded.2.2 _ _ hbuf).2.2 inode rfl c (hsubr c hc)
                  omega
                · rcases storeGet_set_cases _ _ _ _ _ hg3 with ⟨hi4, rfl⟩ | ⟨hi4, hg4⟩
                  · subst hi4
                    have hb := inv.bounded.2.2 _ _ hbuf
                    refine ⟨hb.1, by have := inv.bufLt; omega, ?_⟩
                    intro m hm c hc
                    obtain rfl := Node.internal.inj hm
                    have := hb.2.2 inode rfl c (hsubl c hc)
                    omega
                  · have hb := inv.bounded.2.2 _ _ hg4
                    refine ⟨hb.1, by have := hb.2.1; omega, ?_⟩
                    intro m hm c hc
                    have := hb.2.2 m hm c hc
                    omega
        · show (if 0 ≥ sized_strcmp key med then s.buf
                else (⟨true, s.store.nextId⟩ : BufLock)).acq = true
          split
          · exact inv.bufAcq
          · rfl
        · exact Or.inr rfl
        · intro h
          exact Bool.noConfusion h
        · intro he
          exfalso
          revert he
          show (if 0 ≥ sized_strcmp key med then s.buf
                else (⟨true, s.store.nextId⟩ : BufLock)).id = s.store.nextId + 1 → False
          split
          · intro he
            have := inv.bufLt
            omega
          · intro he
            have h1 : s.store.nextId = s.store.nextId + 1 := he
            omega
        · show (if 0 ≥ sized_strcmp key med then s.buf
                else (⟨true, s.store.nextId⟩ : BufLock)).id < s.store.nextId + 1 + 1
          split
          · have := inv.bufLt
            omega
          · show s.store.nextId < s.store.nextId + 1 + 1
            omega
        · intro h
          show s.store.nextId + 1 < s.store.nextId + 1 + 1
          omega
        · by_cases hc : 0 ≥ sized_strcmp key med
          · refine ⟨nl, ?_, hfl, fun _ => hul⟩
            show storeGet (storeSet (storeSet (storeSet (storeSet s.store.blocks s.buf.id
                (Node.internal nl)) s.store.nextId (Node.internal nr)) (s.store.nextId + 1)
                (Node.internal ⟨[], none⟩)) (s.store.nextId + 1)
                (Node.internal ⟨[(med, s.buf.id)], some s.store.nextId⟩))
                ((if 0 ≥ sized_strcmp key med then s.buf
                  else (⟨true, s.store.nextId⟩ : BufLock)).id) = some (Node.internal nl)
            rw [if_pos hc]
            rw [storeGet_set_ne _ _ _ _ (by have := inv.bufLt; omega),
                storeGet_set_ne _ _ _ _ (by have := inv.bufLt; omega),
                storeGet_set_ne _ _ _ _ (by have := inv.bufLt; omega),
                storeGet_set_self]
          · refine ⟨nr, ?_, hfr, fun _ => hur⟩
            show storeGet (storeSet (storeSet (storeSet (storeSet s.store.blocks s.buf.id
                (Node.internal nl)) s.store.nextId (Node.internal nr)) (s.store.nextId + 1)
                (Node.internal ⟨[], none⟩)) (s.store.nextId + 1)
                (Node.internal ⟨[(med, s.buf.id)], some s.store.nextId⟩))
                ((if 0 ≥ sized_strcmp key med then s.buf
                  else (⟨true, s.store.nextId⟩ : BufLock)).id) = some (Node.internal nr)
            rw [if_neg hc]
            show storeGet (storeSet (storeSet (storeSet (storeSet s.store.blocks s.buf.id
                (Node.internal nl)) s.store.nextId (Node.internal nr)) (s.store.nextId + 1)
                (Node.internal ⟨[], none⟩)) (s.store.nextId + 1)
                (Node.internal ⟨[(med, s.buf.id)], some s.store.nextId⟩)) s.store.nextId
                = some (Node.internal nr)
            rw [storeGet_set_ne _ _ _ _ (by omega), storeGet_set_ne _ _ _ _ (by omega),
                storeGet_set_self]
      · intro e he
        rw [heval] at he
        exact Except.noConfusion he



theorem underfull_noop (bs : Nat) (key : Key) (s : WalkState) (node : Node)
    (hbuf : s.store.getNode s.buf.id = some node)
    (hcond : s.last.acq = false ∨ node_is_underfull bs node = false) :
    check_and_handle_underfull bs key s = Except.ok s := by
  have hc : (s.last.acq && node_is_underfull bs node) = false := by
    rcases hcond with h | h <;> simp [h]
  simp [check_and_handle_underfull, hbuf, hc, bind, Except.bind, pure, Except.pure]

theorem lookup_safe (bs : Nat) (key : Key) (r : WalkState) (n' : InternalNode)
    (hnOK : gNodesOK bs r.store) (hfil : gFilled bs r.store)
    (hrc : gNoRootChild r.store) (hbd : gBounded r.store)
    (hbufacq : r.buf.acq = true)
    (hbn : r.store.getNode r.buf.id = some (Node.internal n'))
    (hnf : internal_is_full bs n' = false)
    (hatRootSb : r.buf.id = r.store.superRoot → r.sb.acq = true) :
    (∀ t, descendLookup key r = Except.ok t → WalkInv bs t) ∧
    (∀ e, descendLookup key r = Except.error e →
      e ≠ RErr.insertRootNoSb ∧ e ≠ RErr.internalInsertFailed) := by
  by_cases hcid : (internal_lookup n' key = NULL_BLOCK_ID ∨
      internal_lookup n' key = SUPERBLOCK_ID)
  · have heval : descendLookup key r = Except.error RErr.childIdInvalid := by
      rcases hcid with h | h <;>
        simp [descendLookup, hbn, h, bind, Except.bind, pure, Except.pure, throw, throwThe,
          MonadExceptOf.throw]
    constructor
    · intro t ht
      rw [heval] at ht
      exact Except.noConfusion ht
    · intro e he
      rw [heval] at he
      rw [Except.error.injEq] at he
      subst he
      exact ⟨by decide, by decide⟩
  · have hnot := hcid
    rw [not_or] at hnot
    have heval : descendLookup key r = Except.ok
        { r with last := r.buf, buf := ⟨true, internal_lookup n' key⟩ } := by
      simp [descendLookup, hbn, hnot.1, hnot.2, bind, Except.bind, pure, Except.pure]
    have hmem : internal_lookup n' key ∈ n'.childIds := by
      rcases internal_lookup_mem n' key with h | h
      · exact absurd h hnot.1
      · exact h
    have hcidlt : internal_lookup n' key < r.store.nextId :=
      (hbd.2.2 _ _ hbn).2.2 n' rfl _ hmem
    have hcidR : internal_lookup n' key ≠ r.store.superRoot := by
      intro h
      exact hrc _ _ hbn (h ▸ hmem)
    constructor
    · intro t ht
      rw [heval] at ht
      rw [Except.ok.injEq] at ht
      subst ht
      refine { nodesOK := hnOK, filled := hfil, rootChild := hrc, bounded := hbd,
               bufAcq := rfl, held := Or.inr hbufacq, noLast := ?_, atRoot := ?_,
               bufLt := hcidlt, lastRoot := ?_, lastLt := ?_, parentNotFull := ?_ }
      · intro h
        exact absurd (h.symm.trans hbufacq) (by decide)
      · intro he
        exact absurd he hcidR
      · intro _ hre
        exact hatRootSb hre
      · intro _
        exact (hbd.2.2 _ _ hbn).2.1
      · intro _ m hm
        have h2 := hbn.symm.trans hm
        obtain rfl := Node.internal.inj (Option.some.inj h2)
        exact hnf
    · intro e he
      rw [heval] at he
      exact Except.noConfusion he

theorem descendStep_safe (bs : Nat) (key : Key) (hbs : 6 ≤ bs) (s : WalkState)
    (inode : InternalNode) (inv : WalkInv bs s)
    (hbuf : s.store.getNode s.buf.id = some (Node.internal inode)) :
    (∀ t, descendStep bs key s = Except.ok t → WalkInv bs t) ∧
    (∀ e, descendStep bs key s = Except.error e →
      e ≠ RErr.insertRootNoSb ∧ e ≠ RErr.internalInsertFailed) := by
  obtain ⟨hsplitOk, hsplitErr⟩ := split_descend_safe bs key hbs s inode inv hbuf
  cases hsplit : check_and_handle_split bs key none s with
  | error e =>
    have heval : descendStep bs key s = Except.error e := by
      simp [descendStep, descendRelease, hsplit, bind, Except.bind]
    constructor
    · intro t ht
      rw [heval] at ht
      exact Except.noConfusion ht
    · intro e' he'
      rw [heval] at he'
      rw [Except.error.injEq] at he'
      subst he'
      exact hsplitErr e hsplit
  | ok s1 =>
    have M : MidInv bs s1 := hsplitOk s1 hsplit
    obtain ⟨n', hbn, hnf, hnu⟩ := M.bufNode
    have hu : check_and_handle_underfull bs key s1 = Except.ok s1 := by
      apply underfull_noop bs key s1 (Node.internal n') hbn
      by_cases hl : s1.last.acq = true
      · exact Or.inr (hnu hl)
      · exact Or.inl (by revert hl; cases s1.last.acq <;> simp)
    by_cases hrel : (s1.sb.acq && s1.last.acq) = true
    · have heval : descendStep bs key s =
          descendLookup key { s1 with sb := ⟨false, s1.sb.id⟩ } := by
        simp [descendStep, descendRelease, hsplit, hu, hrel, bind, Except.bind,
          pure, Except.pure]
      have hl : s1.last.acq = true := by
        revert hrel; cases s1.last.acq <;> simp
      have hres := lookup_safe bs key { s1 with sb := ⟨false, s1.sb.id⟩ } n'
        M.nodesOK M.filled M.rootChild M.bounded M.bufAcq hbn hnf
        (fun he => absurd ((M.atRoot he).2.symm.trans hl) (by decide))
      rw [heval]
      exact hres
    · have heval : descendStep bs key s = descendLookup key s1 := by
        simp [descendStep, descendRelease, hsplit, hu, hrel, bind, Except.bind,
          pure, Except.pure]
      have hres := lookup_safe bs key s1 n'
        M.nodesOK M.filled M.rootChild M.bounded M.bufAcq hbn hnf
        (fun he => (M.atRoot he).1)
      rw [heval]
      exact hres



theorem leafInv_of_walkInv (bs : Nat) (s : WalkState) (inv : WalkInv bs s) :
    LeafInv bs s :=
  { nodesOK := inv.nodesOK, filled := inv.filled, bounded := inv.bounded,
    bufAcq := inv.bufAcq, bufLt := inv.bufLt, noLast := inv.noLast,
    atRootNoLast := fun h => (inv.atRoot h).2, lastRoot := inv.lastRoot,
    parentNotFull := inv.parentNotFull,
    held := inv.held.elim Or.inl (fun h => Or.inr (Or.inl h)) }

theorem descend_leaf (bs : Nat) (key : Key) (fuel : Nat) (s : WalkState)
    (ts : Nat) (es : List LeafEntry)
    (hbuf : s.store.getNode s.buf.id = some (Node.leaf ts es)) :
    descend bs key fuel s = Except.ok s := by
  cases fuel with
  | zero => simp [descend, hbuf, Node.isInternal, bind, Except.bind, pure, Except.pure]
  | succ n => simp [descend, hbuf, Node.isInternal, bind, Except.bind, pure, Except.pure]

theorem descend_safe (bs : Nat) (key : Key) (hbs : 6 ≤ bs) : ∀ (fuel : Nat)
    (s : WalkState), WalkInv bs s →
    (∀ t, descend bs key fuel s = Except.ok t → LeafInv bs t) ∧
    (∀ e, descend bs key fuel s = Except.error e →
      e ≠ RErr.insertRootNoSb ∧ e ≠ RErr.internalInsertFailed) := by
  intro fuel
  induction fuel with
  | zero =>
    intro s inv
    cases hbuf : s.store.getNode s.buf.id with
    | none =>
      have heval : descend bs key 0 s = Except.error RErr.missingBlock := by
        simp [descend, hbuf, bind, Except.bind, pure, Except.pure, throw, throwThe,
          MonadExceptOf.throw]
      constructor
      · intro t ht
        rw [heval] at ht
        exact Except.noConfusion ht
      · intro e he
        rw [heval] at he
        rw [Except.error.injEq] at he
        subst he
        exact ⟨by decide, by decide⟩
    | some node =>
      cases node with
      | leaf ts es =>
        have heval : descend bs key 0 s = Except.ok s := by
          simp [descend, hbuf, Node.isInternal, bind, Except.bind, pure, Except.pure]
        constructor
        · intro t ht
          rw [heval] at ht
          rw [Except.ok.injEq] at ht
          subst ht
          exact leafInv_of_walkInv bs s inv
        · intro e he
          rw [heval] at he
          exact Except.noConfusion he
      | internal inode =>
        have heval : descend bs key 0 s = Except.error RErr.outOfFuel := by
          simp [descend, hbuf, Node.isInternal, bind, Except.bind, pure, Except.pure,
            throw, throwThe, MonadExceptOf.throw]
        constructor
        · intro t ht
          rw [heval] at ht
          exact Except.noConfusion ht
        · intro e he
          rw [heval] at he
          rw [Except.error.injEq] at he
          subst he
          exact ⟨by decide, by decide⟩
  | succ n ih =>
    intro s inv
    cases hbuf : s.store.getNode s.buf.id with
    | none =>
      have heval : descend bs key (n + 1) s = Except.error RErr.missingBlock := by
        simp [descend, hbuf, bind, Except.bind, pure, Except.pure, throw, throwThe,
          MonadExceptOf.throw]
      constructor
      · intro t ht
        rw [heval] at ht
        exact Except.noConfusion ht
      · intro e he
        rw [heval] at he
        rw [Except.error.injEq] at he
        subst he
        exact ⟨by decide, by decide⟩
    | some node =>
      cases node with
      | leaf ts es =>
        have heval : descend bs key (n + 1) s = Except.ok s := by
          simp [descend, hbuf, Node.isInternal, bind, Except.bind, pure, Except.pure]
        constructor
        · intro t ht
          rw [heval] at ht
          rw [Except.ok.injEq] at ht
          subst ht
          exact leafInv_of_walkInv bs s inv
        · intro e he
          rw [heval] at he
          exact Except.noConfusion he
      | internal inode =>
        obtain ⟨hstepOk, hstepErr⟩ := descendStep_safe bs key hbs s inode inv hbuf
        cases hstep : descendStep bs key s with
        | error e =>
          have heval : descend bs key (n + 1) s = Except.error e := by
            simp [descend, hbuf, Node.isInternal, hstep, bind, Except.bind]
          constructor
          · intro t ht
            rw [heval] at ht
            exact Except.noConfusion ht
          · intro e' he'
            rw [heval] at he'
            rw [Except.error.injEq] at he'
            subst he'
            exact hstepErr e hstep
        | ok s' =>
          have heval : descend bs key (n + 1) s = descend bs key n s' := by
            simp [descend, hbuf, Node.isInternal, hstep, bind, Except.bind]
          rw [heval]
          exact ih s' (hstepOk s' hstep)



theorem split_leaf_safe (bs : Nat) (key : Key) (v : BtreeValue) (hbs : 6 ≤ bs)
    (s : WalkState) (inv : LeafInv bs s) :
    (∀ t, check_and_handle_split bs key (some v) s = Except.ok t →
      ∃ lts' es', t.store.getNode t.buf.id = some (Node.leaf lts' es') ∧
        (t.last.acq = false ∨ node_is_underfull bs (Node.leaf lts' es') = false)) ∧
    (∀ e, check_and_handle_split bs key (some v) s = Except.error e →
      e ≠ RErr.insertRootNoSb ∧ e ≠ RErr.internalInsertFailed) := by
  cases hbuf : s.store.getNode s.buf.id with
  | none =>
    have heval : check_and_handle_split bs key (some v) s =
        Except.error RErr.missingBlock := by
      simp [check_and_handle_split, hbuf, bind, Except.bind, pure, Except.pure,
        throw, throwThe, MonadExceptOf.throw]
    constructor
    · intro t ht
      rw [heval] at ht
      exact Except.noConfusion ht
    · intro e he
      rw [heval] at he
      rw [Except.error.injEq] at he
      subst he
      exact ⟨by decide, by decide⟩
  | some node =>
    cases node with
    | internal inode =>
      have heval : check_and_handle_split bs key (some v) s =
          Except.error RErr.splitInternalHasValue := by
        simp [check_and_handle_split, hbuf, bind, Except.bind, pure, Except.pure,
          throw, throwThe, MonadExceptOf.throw]
      constructor
      · intro t ht
        rw [heval] at ht
        exact Except.noConfusion ht
      · intro e he
        rw [heval] at he
        rw [Except.error.injEq] at he
        subst he
        exact ⟨by decide, by decide⟩
    | leaf lts es =>
      by_cases hfull : leaf_is_full bs es key v = true
      case neg =>
        have hfull' : leaf_is_full bs es key v = false := by
          revert hfull; cases leaf_is_full bs es key v <;> simp
        have heval := split_noop_leaf bs key v s lts es hbuf hfull'
        constructor
        · intro t ht
          rw [heval] at ht
          rw [Except.ok.injEq] at ht
          subst ht
          refine ⟨lts, es, hbuf, ?_⟩
          by_cases hr : s.buf.id = s.store.superRoot
          · exact Or.inl (inv.atRootNoLast hr)
          · exact Or.inr (inv.filled _ _ hbuf hr)
        · intro e he
          rw [heval] at he
          exact Except.noConfusion he
      case pos =>
        have hcap : es.length ≤ bs := inv.nodesOK _ _ hbuf
        obtain ⟨esl, esr, med, hsp, hcapl, hcapr, hul, hur⟩ :=
          leaf_split_facts bs hbs lts es key v hfull hcap
        by_cases hlast : s.last.acq = true
        case pos =>
          by_cases hlb : s.last.id = s.buf.id
          case pos =>
            have hp : storeGet (storeSet (storeSet s.store.blocks s.buf.id
                (Node.leaf lts esl)) s.store.nextId (Node.leaf lts esr)) s.last.id =
                some (Node.leaf lts esl) := by
              rw [hlb, storeGet_set_ne _ _ _ _ (by have := inv.bufLt; omega),
                storeGet_set_self]
            have heval := split_eval_parent_cast bs key (some v) s (Node.leaf lts es)
              (Node.leaf lts esl) (Node.leaf lts esr) med lts esl hbuf hfull trivial hsp
              hlast hp
            constructor
            · intro t ht
              rw [heval] at ht
              exact Except.noConfusion ht
            · intro e he
              rw [heval] at he
              rw [Except.error.injEq] at he
              subst he
              exact ⟨by decide, by decide⟩
          case neg =>
            by_cases hln : s.last.id = s.store.nextId
            case pos =>
              have hp : storeGet (storeSet (storeSet s.store.blocks s.buf.id
                  (Node.leaf lts esl)) s.store.nextId (Node.leaf lts esr)) s.last.id =
                  some (Node.leaf lts esr) := by
                rw [hln, storeGet_set_self]
              have heval := split_eval_parent_cast bs key (some v) s (Node.leaf lts es)
                (Node.leaf lts esl) (Node.leaf lts esr) med lts esr hbuf hfull trivial hsp
                hlast hp
              constructor
              · intro t ht
                rw [heval] at ht
                exact Except.noConfusion ht
              · intro e he
                rw [heval] at he
                rw [Except.error.injEq] at he
                subst he
                exact ⟨by decide, by decide⟩
            case neg =>
              have hpread : storeGet (storeSet (storeSet s.store.blocks s.buf.id
                  (Node.leaf lts esl)) s.store.nextId (Node.leaf lts esr)) s.last.id =
                  storeGet s.store.blocks s.last.id := by
                rw [storeGet_set_ne _ _ _ _ (fun h => hln h.symm),
                    storeGet_set_ne _ _ _ _ (fun h => hlb h.symm)]
              cases hpn : storeGet s.store.blocks s.last.id with
              | none =>
                have heval := split_eval_parent_missing bs key (some v) s
                  (Node.leaf lts es) (Node.leaf lts esl) (Node.leaf lts esr) med hbuf
                  hfull trivial hsp hlast (by rw [hpread]; exact hpn)
                constructor
                · intro t ht
                  rw [heval] at ht
                  exact Except.noConfusion ht
                · intro e he
                  rw [heval] at he
                  rw [Except.error.injEq] at he
                  subst he
                  exact ⟨by decide, by decide⟩
              | some pnode =>
                cases pnode with
                | leaf pts pes =>
                  have heval := split_eval_parent_cast bs key (some v) s
                    (Node.leaf lts es) (Node.leaf lts esl) (Node.leaf lts esr) med pts pes
                    hbuf hfull trivial hsp hlast (by rw [hpread]; exact hpn)
                  constructor
                  · intro t ht
                    rw [heval] at ht
                    exact Except.noConfusion ht
                  · intro e he
                    rw [heval] at he
                    rw [Except.error.injEq] at he
                    subst he
                    exact ⟨by decide, by decide⟩
                | internal parent =>
                  have hpnf := inv.parentNotFull hlast parent hpn
                  have hparok : nodeOK bs (Node.internal parent) := inv.nodesOK _ _ hpn
                  obtain ⟨parent', hins, hokp', hmono, hsubp⟩ :=
                    internal_insert_facts bs hbs parent med s.buf.id s.store.nextId hpnf
                      hparok.2
                  have heval := split_eval_parent bs key (some v) s (Node.leaf lts es)
                    (Node.leaf lts esl) (Node.leaf lts esr) med parent parent' hbuf hfull
                    trivial hsp hlast (by rw [hpread]; exact hpn) hins
                  constructor
                  · intro t ht
                    rw [heval] at ht
                    rw [Except.ok.injEq] at ht
                    subst ht
                    by_cases hc : 0 ≥ sized_strcmp key med
                    · refine ⟨lts, esl, ?_, Or.inr hul⟩
                      show storeGet (storeSet (storeSet (storeSet s.store.blocks s.buf.id
                          (Node.leaf lts esl)) s.store.nextId (Node.leaf lts esr))
                          s.last.id (Node.internal parent'))
                          ((if 0 ≥ sized_strcmp key med then s.buf
                            else (⟨true, s.store.nextId⟩ : BufLock)).id) =
                          some (Node.leaf lts esl)
                      rw [if_pos hc]
                      rw [storeGet_set_ne _ _ _ _ hlb,
                          storeGet_set_ne _ _ _ _ (by have := inv.bufLt; omega),
                          storeGet_set_self]
                    · refine ⟨lts, esr, ?_, Or.inr hur⟩
                      show storeGet (storeSet (storeSet (storeSet s.store.blocks s.buf.id
                          (Node.leaf lts esl)) s.store.nextId (Node.leaf lts esr))
                          s.last.id (Node.internal parent'))
                          ((if 0 ≥ sized_strcmp key med then s.buf
                            else (⟨true, s.store.nextId⟩ : BufLock)).id) =
                          some (Node.leaf lts esr)
                      rw [if_neg hc]
                      show storeGet (storeSet (storeSet (storeSet s.store.blocks s.buf.id
                          (Node.leaf lts esl)) s.store.nextId (Node.leaf lts esr))
                          s.last.id (Node.internal parent')) s.store.nextId =
                          some (Node.leaf lts esr)
                      rw [storeGet_set_ne _ _ _ _ hln, storeGet_set_self]
                  · intro e he
                    rw [heval] at he
                    exact Except.noConfusion he
        case neg =>
          have hlast' : s.last.acq = false := by
            revert hlast; cases s.last.acq <;> simp
          have hsb : s.sb.acq = true := by
            rcases inv.held with h | h
            · exact h
            · rcases h with h | h
              · rw [hlast'] at h
                exact Bool.noConfusion h
              · obtain ⟨ts0, hE⟩ := h
                have h2 := hbuf.symm.trans hE
                rw [Option.some.injEq] at h2
                obtain ⟨-, h3⟩ := Node.leaf.inj h2
                subst h3
                rw [leaf_full_iff] at hfull
                simp at hfull
                omega
          have hins := internal_insert_empty bs hbs med s.buf.id s.store.nextId
          have heval := split_eval_root bs key (some v) s (Node.leaf lts es)
            (Node.leaf lts esl) (Node.leaf lts esr) med
            ⟨[(med, s.buf.id)], some s.store.nextId⟩ hbuf hfull trivial hsp hlast' hsb hins
          constructor
          · intro t ht
            rw [heval] at ht
            rw [Except.ok.injEq] at ht
            subst ht
            by_cases hc : 0 ≥ sized_strcmp key med
            · refine ⟨lts, esl, ?_, Or.inr hul⟩
              show storeGet (storeSet (storeSet (storeSet (storeSet s.store.blocks
                  s.buf.id (Node.leaf lts esl)) s.store.nextId (Node.leaf lts esr))
                  (s.store.nextId + 1) (Node.internal ⟨[], none⟩)) (s.store.nextId + 1)
                  (Node.internal ⟨[(med, s.buf.id)], some s.store.nextId⟩))
                  ((if 0 ≥ sized_strcmp key med then s.buf
                    else (⟨true, s.store.nextId⟩ : BufLock)).id) = some (Node.leaf lts esl)
              rw [if_pos hc]
              rw [storeGet_set_ne _ _ _ _ (by have := inv.bufLt; omega),
                  storeGet_set_ne _ _ _ _ (by have := inv.bufLt; omega),
                  storeGet_set_ne _ _ _ _ (by have := inv.bufLt; omega),
                  storeGet_set_self]
            · refine ⟨lts, esr, ?_, Or.inr hur⟩
              show storeGet (storeSet (storeSet (storeSet (storeSet s.store.blocks
                  s.buf.id (Node.leaf lts esl)) s.store.nextId (Node.leaf lts esr))
                  (s.store.nextId + 1) (Node.internal ⟨[], none⟩)) (s.store.nextId + 1)
                  (Node.internal ⟨[(med, s.buf.id)], some s.store.nextId⟩))
                  ((if 0 ≥ sized_strcmp key med then s.buf
                    else (⟨true, s.store.nextId⟩ : BufLock)).id) = some (Node.leaf lts esr)
              rw [if_neg hc]
              show storeGet (storeSet (storeSet (storeSet (storeSet s.store.blocks
                  s.buf.id (Node.leaf lts esl)) s.store.nextId (Node.leaf lts esr))
                  (s.store.nextId + 1) (Node.internal ⟨[], none⟩)) (s.store.nextId + 1)
                  (Node.internal ⟨[(med, s.buf.id)], some s.store.nextId⟩)) s.store.nextId
                  = some (Node.leaf lts esr)
              rw [storeGet_set_ne _ _ _ _ (by omega), storeGet_set_ne _ _ _ _ (by omega),
                  storeGet_set_self]
          · intro e he
            rw [heval] at he
            exact Except.noConfusion he



theorem underfull_safe (bs : Nat) (key : Key) (hbs : 6 ≤ bs) (s : WalkState)
    (hsing : s.last.acq = true → ∀ parent,
      s.store.getNode s.last.id = some (Node.internal parent) →
      internal_is_singleton parent = true → s.sb.acq = true) :
    ∀ e, check_and_handle_underfull bs key s = Except.error e →
      e ≠ RErr.insertRootNoSb ∧ e ≠ RErr.internalInsertFailed := by
  intro e he
  simp only [check_and_handle_underfull, bind, Except.bind, pure, Except.pure,
    throw, throwThe, MonadExceptOf.throw, insert_root] at he
  repeat' split at he
  all_goals first
    | exact Except.noConfusion he
    | (rw [Except.error.injEq] at he; subst he; exact ⟨by decide, by decide⟩)
    | skip
  all_goals
    rename_i x3 pn2 hbufeq hcond x2 pn1 parent hparenteq x1 pnsib hsibeq hmerg hdir
      hsg x0 err heq
  all_goals
    have hl : s.last.acq = true := by
      rw [Bool.and_eq_true] at hcond
      exact hcond.1
  all_goals
    have hsg' : internal_is_singleton parent = true := by
      revert hsg
      cases internal_is_singleton parent <;> simp
  all_goals
    have hsb := hsing hl parent hparenteq hsg'
  all_goals
    rw [if_pos hsb] at heq
  all_goals
    exact Except.noConfusion heq



theorem upsert_underfull_noop (bs : Nat) (key : Key) (t : WalkState) (lts' : Nat)
    (es' : List LeafEntry) (w : BtreeValue) (ts ctr : Nat)
    (hbn : t.store.getNode t.buf.id = some (Node.leaf lts' es'))
    (hdisj : t.last.acq = false ∨ node_is_underfull bs (Node.leaf lts' es') = false) :
    check_and_handle_underfull bs key
      { t with store := t.store.setNode t.buf.id (Node.leaf lts' (leaf_upsert key w ts es')),
               casCtr := ctr } =
    Except.ok
      { t with store := t.store.setNode t.buf.id (Node.leaf lts' (leaf_upsert key w ts es')),
               casCtr := ctr } := by
  apply underfull_noop
  · show storeGet (storeSet t.store.blocks t.buf.id
      (Node.leaf lts' (leaf_upsert key w ts es'))) t.buf.id =
      some (Node.leaf lts' (leaf_upsert key w ts es'))
    exact storeGet_set_self _ _ _
  · rcases hdisj with h | h
    · exact Or.inl h
    · right
      rw [underfull_false_iff] at h ⊢
      have := (leaf_upsert_length key w ts es').1
      simp only [Node.size] at h ⊢
      omega

theorem singleton_parent_root (bs : Nat) (hbs : 6 ≤ bs) (st : Store) (i : Nat)
    (parent : InternalNode) (hfil : gFilled bs st)
    (hp : storeGet st.blocks i = some (Node.internal parent))
    (hsg : internal_is_singleton parent = true) : i = st.superRoot := by
  by_contra hne
  have hund := hfil _ _ hp hne
  rw [underfull_false_iff] at hund
  simp only [Node.size] at hund
  simp [internal_is_singleton] at hsg
  omega

theorem applyUpdate_safe (bs : Nat) (key : Key) (oper : ModifyOper) (tstamp : Nat)
    (kf ex : Bool) (nv : Option BtreeValue) (s : WalkState) (hbs : 6 ≤ bs)
    (inv : LeafInv bs s) :
    ∀ e, applyUpdate bs key oper tstamp kf ex nv s = Except.error e →
      e ≠ RErr.insertRootNoSb ∧ e ≠ RErr.internalInsertFailed := by
  intro e he
  cases nv with
  | some v =>
    obtain ⟨hOk, hErr⟩ := split_leaf_safe bs key v hbs s inv
    cases hsplit : check_and_handle_split bs key (some v) s with
    | error e1 =>
      simp only [applyUpdate, hsplit, bind, Except.bind] at he
      rw [Except.error.injEq] at he
      subst he
      exact hErr e1 hsplit
    | ok t =>
      obtain ⟨lts2, es2, hbn, hdisj⟩ := hOk t hsplit
      simp only [applyUpdate, hsplit, bind, Except.bind, pure, Except.pure, gen_cas,
        hbn, throw, throwThe, MonadExceptOf.throw] at he
      repeat' split at he
      all_goals first
        | exact Except.noConfusion he
        | (rw [Except.error.injEq] at he; subst he; exact ⟨by decide, by decide⟩)
        | (rw [upsert_underfull_noop bs key t lts2 es2 _ _ _ hbn hdisj] at he;
           exact Except.noConfusion he)
  | none =>
    by_cases hke : (kf || ex) = true
    · cases hn : s.store.getNode s.buf.id with
      | none =>
        simp only [applyUpdate, hke, if_true, hn, bind, Except.bind, pure, Except.pure,
          throw, throwThe, MonadExceptOf.throw] at he
        rw [Except.error.injEq] at he
        subst he
        exact ⟨by decide, by decide⟩
      | some n =>
        cases n with
        | internal inode =>
          simp only [applyUpdate, hke, if_true, hn, bind, Except.bind, pure, Except.pure,
            throw, throwThe, MonadExceptOf.throw] at he
          rw [Except.error.injEq] at he
          subst he
          exact ⟨by decide, by decide⟩
        | leaf lts es =>
          simp only [applyUpdate, hke, if_true, hn, bind, Except.bind, pure,
            Except.pure] at he
          refine underfull_safe bs key hbs _ ?_ e he
          intro hl parent hp hsg
          by_cases hlb : s.last.id = s.buf.id
          · exfalso
            have hp2 : storeGet (storeSet s.store.blocks s.buf.id
                (Node.leaf lts (leaf_remove key es))) s.last.id =
                some (Node.internal parent) := hp
            rw [hlb, storeGet_set_self] at hp2
            rw [Option.some.injEq] at hp2
            exact Node.noConfusion hp2
          · have hp2 : storeGet s.store.blocks s.last.id = some (Node.internal parent) := by
              have hp3 : storeGet (storeSet s.store.blocks s.buf.id
                  (Node.leaf lts (leaf_remove key es))) s.last.id =
                  some (Node.internal parent) := hp
              rwa [storeGet_set_ne _ _ _ _ (fun h => hlb h.symm)] at hp3
            have hroot := singleton_parent_root bs hbs s.store s.last.id parent
              inv.filled hp2 hsg
            exact inv.lastRoot hl hroot
    · have hke' : (kf || ex) = false := by
        revert hke; cases h : (kf || ex) <;> simp
      simp only [applyUpdate, hke', Bool.false_eq_true, if_false, bind, Except.bind,
        pure, Except.pure] at he
      refine underfull_safe bs key hbs s ?_ e he
      intro hl parent hp hsg
      have hroot := singleton_parent_root bs hbs s.store s.last.id parent inv.filled hp hsg
      exact inv.lastRoot hl hroot



theorem leafStage_safe (bs : Nat) (key : Key) (oper : ModifyOper) (tstamp : Nat)
    (s : WalkState) (hbs : 6 ≤ bs) (inv : LeafInv bs s) :
    ∀ e, leafStage bs key oper tstamp s = Except.error e →
      e ≠ RErr.insertRootNoSb ∧ e ≠ RErr.internalInsertFailed := by
  intro e he
  cases hn : s.store.getNode s.buf.id with
  | none =>
    simp only [leafStage, hn, bind, Except.bind, pure, Except.pure, throw, throwThe,
      MonadExceptOf.throw] at he
    rw [Except.error.injEq] at he
    subst he
    exact ⟨by decide, by decide⟩
  | some n =>
    cases n with
    | internal inode =>
      simp only [leafStage, hn, bind, Except.bind, pure, Except.pure, throw, throwThe,
        MonadExceptOf.throw] at he
      rw [Except.error.injEq] at he
      subst he
      exact ⟨by decide, by decide⟩
    | leaf lts es =>
      simp only [leafStage, hn, bind, Except.bind, pure, Except.pure, throw, throwThe,
        MonadExceptOf.throw] at he
      set ov := (leaf_lookup es key).getD ⟨[], false, 0, false, none⟩ with hov
      set f0 := (leaf_lookup es key).isSome with hf0
      set r := oper.operate (if (f0 && !(f0 && ov.expired)) = true then some ov else none)
        with hr
      by_cases hup : r.update_needed = true
      · rw [if_pos hup] at he
        simp only [hup, Bool.not_true, Bool.false_and, Bool.false_eq_true, if_false] at he
        cases hnv : r.new_value with
        | some nv =>
          rw [hnv] at he
          simp only [] at he
          repeat' split at he
          all_goals first
            | exact Except.noConfusion he
            | (rw [Except.error.injEq] at he; subst he; exact ⟨by decide, by decide⟩)
            | (rw [Except.error.injEq] at he; subst he;
               exact applyUpdate_safe bs key oper tstamp _ _ _ s hbs inv _ (by assumption))
        | none =>
          rw [hnv] at he
          simp only [] at he
          repeat' split at he
          all_goals first
            | exact Except.noConfusion he
            | (rw [Except.error.injEq] at he; subst he; exact ⟨by decide, by decide⟩)
            | (rw [Except.error.injEq] at he; subst he;
               exact applyUpdate_safe bs key oper tstamp _ _ _ s hbs inv _ (by assumption))
      · have hup' : r.update_needed = false := by
          revert hup; cases r.update_needed <;> simp
        rw [if_neg hup] at he
        simp only [hup', Bool.not_false, Bool.true_and, Bool.false_eq_true, if_false] at he
        by_cases hex : (f0 && ov.expired) = true
        · simp only [hex, if_true] at he
          repeat' split at he
          all_goals first
            | exact Except.noConfusion he
            | (rw [Except.error.injEq] at he; subst he; exact ⟨by decide, by decide⟩)
            | (rw [Except.error.injEq] at he; subst he;
               exact applyUpdate_safe bs key oper tstamp _ _ _ s hbs inv _ (by assumption))
        · have hex' : (f0 && ov.expired) = false := by
            revert hex; cases (f0 && ov.expired) <;> simp
          simp only [hex', Bool.false_eq_true, if_false] at he
          repeat' split at he
          all_goals first
            | exact Except.noConfusion he
            | (rw [Except.error.injEq] at he; subst he; exact ⟨by decide, by decide⟩)
            | (rw [Except.error.injEq] at he; subst he;
               exact applyUpdate_safe bs key oper tstamp _ _ _ s hbs inv _ (by assumption))



theorem run_modify_benign (bs : Nat) (oper : ModifyOper) (key : Key)
    (tstamp casCtr0 : Nat) (depth0 : Int) (fuel : Nat) (store0 : Store) (hbs : 6 ≤ bs)
    (h1 : storeNodesOK bs store0) (h2 : storeNonRootFilled bs store0)
    (h3 : storeNoRootChild store0) (h4 : storeBounded store0) :
    ∀ e, run_btree_modify_oper bs oper key tstamp casCtr0 depth0 fuel store0 =
      Except.error e → e ≠ RErr.insertRootNoSb ∧ e ≠ RErr.internalInsertFailed := by
  intro e he
  have g1 := gNodesOK_of_mem bs store0 h1
  have g2 := gFilled_of_mem bs store0 h2
  have g3 := gNoRootChild_of_mem store0 h3
  have g4 := gBounded_of_mem store0 h4
  simp only [run_btree_modify_oper, bind, Except.bind] at he
  by_cases hR : store0.superRoot = NULL_BLOCK_ID
  · have heval : get_root tstamp
        ({ store := store0, sb := ⟨true, SUPERBLOCK_ID⟩, last := BufLock.none',
           buf := BufLock.none', depth := depth0, casCtr := casCtr0 } : WalkState) =
        Except.ok
          { store := { blocks := storeSet store0.blocks store0.nextId
                         (Node.leaf tstamp []),
                       superRoot := store0.nextId, nextId := store0.nextId + 1,
                       deletedBlocks := store0.deletedBlocks,
                       deletedLargeRoots := store0.deletedLargeRoots },
            sb := ⟨false, SUPERBLOCK_ID⟩, last := BufLock.none',
            buf := ⟨true, store0.nextId⟩, depth := depth0 + 1, casCtr := casCtr0 } := by
      simp [get_root, hR, BufLock.none', insert_root, Store.allocate, Store.setNode,
        bind, Except.bind, pure, Except.pure]
    rw [heval] at he
    simp only [] at he
    have hbuf1 : storeGet (storeSet store0.blocks store0.nextId (Node.leaf tstamp []))
        store0.nextId = some (Node.leaf tstamp []) := storeGet_set_self _ _ _
    have hdesc := descend_leaf bs key fuel
      ({ store := { blocks := storeSet store0.blocks store0.nextId (Node.leaf tstamp []),
                    superRoot := store0.nextId, nextId := store0.nextId + 1,
                    deletedBlocks := store0.deletedBlocks,
                    deletedLargeRoots := store0.deletedLargeRoots },
         sb := ⟨false, SUPERBLOCK_ID⟩, last := BufLock.none',
         buf := ⟨true, store0.nextId⟩, depth := depth0 + 1,
         casCtr := casCtr0 } : WalkState) tstamp [] hbuf1
    rw [hdesc] at he
    simp only [] at he
    refine leafStage_safe bs key oper tstamp _ hbs ?_ e he
    refine { nodesOK := ?_, filled := ?_, bounded := ?_, bufAcq := rfl, bufLt := ?_,
             noLast := fun _ => rfl, atRootNoLast := fun _ => rfl,
             lastRoot := fun h => Bool.noConfusion h,
             parentNotFull := fun h => Bool.noConfusion h,
             held := Or.inr (Or.inr ⟨tstamp, hbuf1⟩) }
    · intro i n hg
      dsimp only at hg
      rcases storeGet_set_cases _ _ _ _ _ hg with ⟨hi, rfl⟩ | ⟨hi, hg1⟩
      · show ([] : List LeafEntry).length ≤ bs
        simp
      · exact g1 _ _ hg1
    · intro i n hg hne
      dsimp only at hg hne
      rcases storeGet_set_cases _ _ _ _ _ hg with ⟨hi, rfl⟩ | ⟨hi, hg1⟩
      · exact absurd hi hne
      · refine g2 _ _ hg1 ?_
        intro h0
        have h5 : SUPERBLOCK_ID < i := (g4.2.2 _ _ hg1).1
        rw [h0, hR] at h5
        exact absurd h5 (by decide)
    · refine ⟨?_, ?_, ?_⟩
      · show store0.nextId < store0.nextId + 1
        omega
      · show SUPERBLOCK_ID < store0.nextId + 1
        have := g4.2.1
        omega
      · intro i n hg
        dsimp only at hg ⊢
        rcases storeGet_set_cases _ _ _ _ _ hg with ⟨hi, rfl⟩ | ⟨hi, hg1⟩
        · subst hi
          refine ⟨by have := g4.2.1; omega, by omega, ?_⟩
          intro m hm
          exact Node.noConfusion hm
        · have hb := g4.2.2 _ _ hg1
          refine ⟨hb.1, by have := hb.2.1; omega, ?_⟩
          intro m hm c hc
          have := hb.2.2 m hm c hc
          omega
    · show store0.nextId < store0.nextId + 1
      omega
  · have heval : get_root tstamp
        ({ store := store0, sb := ⟨true, SUPERBLOCK_ID⟩, last := BufLock.none',
           buf := BufLock.none', depth := depth0, casCtr := casCtr0 } : WalkState) =
        Except.ok
          { store := store0, sb := ⟨true, SUPERBLOCK_ID⟩, last := BufLock.none',
            buf := ⟨true, store0.superRoot⟩, depth := depth0, casCtr := casCtr0 } := by
      simp [get_root, hR, BufLock.none', bind, Except.bind, pure, Except.pure]
    rw [heval] at he
    simp only [] at he
    have inv1 : WalkInv bs
        { store := store0, sb := ⟨true, SUPERBLOCK_ID⟩, last := BufLock.none',
          buf := ⟨true, store0.superRoot⟩, depth := depth0, casCtr := casCtr0 } :=
      { nodesOK := g1, filled := g2, rootChild := g3, bounded := g4,
        bufAcq := rfl, held := Or.inl rfl, noLast := fun _ => rfl,
        atRoot := fun _ => ⟨rfl, rfl⟩, bufLt := g4.1,
        lastRoot := fun h => Bool.noConfusion h,
        lastLt := fun h => Bool.noConfusion h,
        parentNotFull := fun h => Bool.noConfusion h }
    obtain ⟨hdOk, hdErr⟩ := descend_safe bs key hbs fuel _ inv1
    cases hd : descend bs key fuel
        { store := store0, sb := ⟨true, SUPERBLOCK_ID⟩, last := BufLock.none',
          buf := ⟨true, store0.superRoot⟩, depth := depth0, casCtr := casCtr0 } with
    | error e1 =>
      rw [hd] at he
      simp only [] at he
      rw [Except.error.injEq] at he
      subst he
      exact hdErr e1 hd
    | ok t2 =>
      rw [hd] at he
      simp only [] at he
      exact leafStage_safe bs key oper tstamp t2 hbs (hdOk t2 hd) e he



/-- C8: In `check_and_handle_split`, the `internal_node::insert` that places
the median separator into the parent never fails: on any run of the walk
from a well-formed store (all nodes fit their block, non-root nodes are not
underfull, the root is nobody's child, and block ids are bounded by the
allocation counter), the `internalInsertFailed` assertion error is never
the result, because every internal node is proactively split on the way
down, so the parent always has room for the separator. -/
theorem split_parent_insert_never_fails (bs : Nat) (oper : ModifyOper) (key : Key)
    (tstamp casCtr0 : Nat) (depth0 : Int) (fuel : Nat) (store0 : Store) (hbs : 6 ≤ bs)
    (h1 : storeNodesOK bs store0) (h2 : storeNonRootFilled bs store0)
    (h3 : storeNoRootChild store0) (h4 : storeBounded store0) :
    run_btree_modify_oper bs oper key tstamp casCtr0 depth0 fuel store0 ≠
      Except.error RErr.internalInsertFailed := by
  intro h
  exact (run_modify_benign bs oper key tstamp casCtr0 depth0 fuel store0 hbs h1 h2 h3 h4
    RErr.internalInsertFailed h).2 rfl

theorem leafRootStore_nil_nodesOK : storeNodesOK 8 (leafRootStore []) := by
  intro p hp
  simp [leafRootStore] at hp
  subst hp
  simp [nodeOK]

theorem leafRootStore_nil_filled : storeNonRootFilled 8 (leafRootStore []) := by
  intro p hp hne
  simp [leafRootStore] at hp
  subst hp
  simp [leafRootStore] at hne

theorem leafRootStore_nil_noRootChild : storeNoRootChild (leafRootStore []) := by
  intro p hp n hn
  simp [leafRootStore] at hp
  subst hp
  exact Node.noConfusion hn

theorem leafRootStore_nil_bounded : storeBounded (leafRootStore []) := by
  refine ⟨by decide, by decide, ?_⟩
  intro p hp
  simp [leafRootStore] at hp
  subst hp
  refine ⟨by decide, by decide, ?_⟩
  intro n hn
  exact Node.noConfusion hn

theorem split_parent_insert_never_fails_witness :
    (6 ≤ 8 ∧ storeNodesOK 8 (leafRootStore []) ∧ storeNonRootFilled 8 (leafRootStore []) ∧
      storeNoRootChild (leafRootStore []) ∧ storeBounded (leafRootStore [])) ∧
    run_btree_modify_oper 8 ⟨false, fun _ => ⟨false, none, false, 0, false⟩⟩ [1] 0 0 0 1
      (leafRootStore []) ≠ Except.error RErr.internalInsertFailed :=
  ⟨⟨by decide, leafRootStore_nil_nodesOK, leafRootStore_nil_filled,
    leafRootStore_nil_noRootChild, leafRootStore_nil_bounded⟩,
   split_parent_insert_never_fails 8 ⟨false, fun _ => ⟨false, none, false, 0, false⟩⟩ [1]
     0 0 0 1 (leafRootStore []) (by decide) leafRootStore_nil_nodesOK
     leafRootStore_nil_filled leafRootStore_nil_noRootChild leafRootStore_nil_bounded⟩

/-- C10: at every call site of `insert_root` — `get_root` installing a first
leaf root, `check_and_handle_split` creating a new parent when `last_buf` is
unacquired, and `check_and_handle_underfull` collapsing a singleton root —
the superblock lock is still acquired, so `insert_root`'s entry assertion
never fails: on any run of the walk from a well-formed store the
`insertRootNoSb` assertion error is never the result. -/
theorem insert_root_sb_always_acquired (bs : Nat) (oper : ModifyOper) (key : Key)
    (tstamp casCtr0 : Nat) (depth0 : Int) (fuel : Nat) (store0 : Store) (hbs : 6 ≤ bs)
    (h1 : storeNodesOK bs store0) (h2 : storeNonRootFilled bs store0)
    (h3 : storeNoRootChild store0) (h4 : storeBounded store0) :
    run_btree_modify_oper bs oper key tstamp casCtr0 depth0 fuel store0 ≠
      Except.error RErr.insertRootNoSb := by
  intro h
  exact (run_modify_benign bs oper key tstamp casCtr0 depth0 fuel store0 hbs h1 h2 h3 h4
    RErr.insertRootNoSb h).1 rfl

theorem insert_root_sb_always_acquired_witness :
    (6 ≤ 8 ∧ storeNodesOK 8 (leafRootStore []) ∧ storeNonRootFilled 8 (leafRootStore []) ∧
      storeNoRootChild (leafRootStore []) ∧ storeBounded (leafRootStore [])) ∧
    run_btree_modify_oper 8 ⟨false, fun _ => ⟨true, some ⟨[7], false, 0, false, none⟩,
        false, 0, false⟩⟩ [1] 0 0 0 1
      (leafRootStore []) ≠ Except.error RErr.insertRootNoSb :=
  ⟨⟨by decide, leafRootStore_nil_nodesOK, leafRootStore_nil_filled,
    leafRootStore_nil_noRootChild, leafRootStore_nil_bounded⟩,
   insert_root_sb_always_acquired 8 ⟨false, fun _ => ⟨true, some ⟨[7], false, 0, false,
       none⟩, false, 0, false⟩⟩ [1]
     0 0 0 1 (leafRootStore []) (by decide) leafRootStore_nil_nodesOK
     leafRootStore_nil_filled leafRootStore_nil_noRootChild leafRootStore_nil_bounded⟩

end RDB
